import Mathlib

/-!
Verification of the fervian-component-compiler-vscode tree provider
(`src/extension.js`).

The development has two parts.

Part 1 embeds the merge logic (`_getFilesFromFolders`), the section builder
(`_getFoldersFromConfig`), the configuration-file scan (`_findFCCWFiles`) and
the root dispatch of `getChildren`.  The filesystem is modelled as a finite
tree of entries rooted at the workspace root; paths are lists of path
components relative to that root (`path.join` of component paths is list
append).  The recursion of `_getFilesFromFolders` is embedded with an explicit
fuel parameter; every theorem about it is uniform in the fuel.  The JavaScript
`TypeError` raised by `merged.get(f)._mergePaths.push(...)` when `_mergePaths`
is `undefined`, and the exception `readdirSync` raises on a non-directory, are
modelled by the `Except` error cases.

Part 2 embeds the create/delete command handlers (`createFilePrompt`,
`deleteFilePrompt`) and the provider constructor over string paths, together
with executable models of the Node `path` functions (`join`, `relative`,
`dirname`) for normalized POSIX paths, and JavaScript `String.prototype.startsWith`
as character-list prefix.
-/

namespace FCCW

/-- A path, as its list of components relative to the workspace root.
`path.join` of such paths is list append. -/
abbrev Path := List String

/-- One filesystem entry: a file, or a directory with its listing
(in `readdirSync` order). -/
inductive Entry where
  | file (name : String)
  | dir (name : String) (children : List Entry)
deriving Repr

/-- Name of an entry. -/
def Entry.name : Entry → String
  | .file n => n
  | .dir n _ => n

/-- `fs.statSync(p).isDirectory()` for an entry. -/
def Entry.isDir : Entry → Bool
  | .file _ => false
  | .dir _ _ => true

/-- Find the entry with the given name in a listing (`readdirSync` semantics:
names are unique in a real directory, the first match is taken). -/
def findE (es : List Entry) (n : String) : Option Entry :=
  es.find? fun e => e.name == n

/-- The listing of the directory at `p` (the whole filesystem `es` is the
listing of the workspace root, path `[]`).  `none` when `p` is missing or is a
file. -/
def childrenAt (es : List Entry) : Path → Option (List Entry)
  | [] => some es
  | n :: rest =>
    match findE es n with
    | some (Entry.dir _ cs) => childrenAt cs rest
    | _ => none

/-- `fs.existsSync` on the modelled filesystem. -/
def existsAt (es : List Entry) : Path → Bool
  | [] => true
  | n :: rest =>
    match findE es n with
    | some (Entry.dir _ cs) => existsAt cs rest
    | some (Entry.file _) => rest.isEmpty
    | none => false

/-- Whether a directory listing has no repeated names. -/
def namesNodupB (es : List Entry) : Bool :=
  decide ((es.map Entry.name).Nodup)

mutual

/-- Well-formedness of one entry: below a directory, names are unique at every
level (true of a real filesystem). -/
def wfE : Entry → Bool
  | .file _ => true
  | .dir _ cs => namesNodupB cs && wfL cs

/-- Well-formedness of a listing (see `wfE`). -/
def wfL : List Entry → Bool
  | [] => true
  | e :: es => wfE e && wfL es

end

/-- Well-formedness of the whole filesystem: unique names at the top level and
below every directory. -/
def wfFS (es : List Entry) : Bool :=
  namesNodupB es && wfL es

/-- The error cases of the embedded merge: the `TypeError` thrown by
`merged.get(f)._mergePaths.push(filePath)` when the existing item is a file
(no `_mergePaths` array), the exception `readdirSync` raises on an existing
non-directory, and exhaustion of the recursion fuel. -/
inductive MergeErr where
  | typeError
  | fsError
  | outOfFuel
deriving Repr, DecidableEq

/-- The transient item stored in the `merged` map during one call of
`_getFilesFromFolders`: label, `resourceUri`, collapsible state, and the
`_mergePaths` array (present exactly on items created from a directory). -/
structure PreItem where
  name : String
  resourceUri : Path
  isDir : Bool
  mergePaths : Option (List Path)
deriving Repr, DecidableEq

/-- A returned tree node: a file item (with its `resourceUri`) or a directory
item (with its `resourceUri` and its eagerly computed `children`). -/
inductive Node where
  | file (name : String) (resourceUri : Path)
  | dir (name : String) (resourceUri : Path) (children : List Node)
deriving Repr

/-- Name (label) of a returned node. -/
def Node.name : Node → String
  | .file n _ => n
  | .dir n _ _ => n

/-- Canonical physical path (`resourceUri`) of a returned node. -/
def Node.resourceUri : Node → Path
  | .file _ u => u
  | .dir _ u _ => u

/-- `merged.get(f)._mergePaths.push(filePath)`: append `p` to the `_mergePaths`
of the item named `f`.  When that item has no `_mergePaths` array (it was
created from a file), this is `undefined.push(...)`: a `TypeError`. -/
def pushMergePath : List PreItem → String → Path → Except MergeErr (List PreItem)
  | [], _, _ => .error .typeError
  | it :: rest, f, p =>
    if it.name = f then
      match it.mergePaths with
      | some ps => .ok ({ it with mergePaths := some (ps ++ [p]) } :: rest)
      | none => .error .typeError
    else
      match pushMergePath rest f p with
      | .ok rest2 => .ok (it :: rest2)
      | .error e => .error e

/-- The `files.forEach(f => ...)` body of `_getFilesFromFolders`, walking the
listing of one root `folderPath` and updating the insertion-ordered `merged`
map (modelled as a list of items). -/
def scanEntries (folderPath : Path) : List Entry → List PreItem → Except MergeErr (List PreItem)
  | [], acc => .ok acc
  | e :: es, acc =>
    if (acc.map PreItem.name).contains e.name then
      if e.isDir then
        match pushMergePath acc e.name (folderPath ++ [e.name]) with
        | .ok acc2 => scanEntries folderPath es acc2
        | .error err => .error err
      else scanEntries folderPath es acc
    else
      scanEntries folderPath es
        (acc ++ [{ name := e.name, resourceUri := folderPath ++ [e.name], isDir := e.isDir,
                   mergePaths := if e.isDir then some [folderPath ++ [e.name]] else none }])

/-- `isFullPath ? folderName : path.join(this.workspaceRoot, folderName)`. -/
def resolveRoot (workspaceRoot : Path) (isFullPath : Bool) (folderName : Path) : Path :=
  if isFullPath then folderName else workspaceRoot ++ folderName

/-- The `folderNames.forEach(folderName => ...)` loop of
`_getFilesFromFolders`: skip falsy names (`undefined` configuration fields),
skip roots that do not exist, list the rest.  An existing non-directory root
makes `readdirSync` throw (`fsError`). -/
def scanRoots (fs : List Entry) (workspaceRoot : Path) (isFullPath : Bool) :
    List (Option Path) → List PreItem → Except MergeErr (List PreItem)
  | [], acc => .ok acc
  | none :: rest, acc => scanRoots fs workspaceRoot isFullPath rest acc
  | some folderName :: rest, acc =>
    let folderPath := resolveRoot workspaceRoot isFullPath folderName
    if existsAt fs folderPath then
      match childrenAt fs folderPath with
      | some files =>
        match scanEntries folderPath files acc with
        | .ok acc2 => scanRoots fs workspaceRoot isFullPath rest acc2
        | .error e => .error e
      | none => .error .fsError
    else scanRoots fs workspaceRoot isFullPath rest acc

/-- The body of the second loop of `_getFilesFromFolders`, for one item of
the `merged` map: an item with a `_mergePaths` array gets its children from
the recursive call `this._getFilesFromFolders(item._mergePaths, true)` (here
`rec`), the array is cleared and the children attached; a file item is
returned as it is. -/
def buildNode (rec : List (Option Path) → Bool → Except MergeErr (List Node))
    (it : PreItem) : Except MergeErr Node :=
  match it.mergePaths with
  | some ps =>
    match rec (ps.map some) true with
    | .ok cs => .ok (Node.dir it.name it.resourceUri cs)
    | .error e => .error e
  | none => .ok (Node.file it.name it.resourceUri)

/-- The second loop of `_getFilesFromFolders` over the values of the `merged`
map, in insertion order. -/
def buildNodesWith (rec : List (Option Path) → Bool → Except MergeErr (List Node)) :
    List PreItem → Except MergeErr (List Node)
  | [] => .ok []
  | it :: its =>
    match buildNode rec it with
    | .ok nd =>
      match buildNodesWith rec its with
      | .ok nds => .ok (nd :: nds)
      | .error e => .error e
    | .error e => .error e

/-- `_getFilesFromFolders(folderNames, isFullPath)`: scan all roots in order
into the `merged` map, then recursively expand every merged directory.  The
`fuel` bounds the recursion depth of the embedding only; the source recursion
terminates on a finite filesystem, and every theorem below is uniform in
`fuel`. -/
def getFilesFromFolders (fs : List Entry) (workspaceRoot : Path) :
    Nat → List (Option Path) → Bool → Except MergeErr (List Node)
  | 0 => fun _ _ => .error .outOfFuel
  | fuel + 1 => fun folderNames isFullPath =>
    match scanRoots fs workspaceRoot isFullPath folderNames [] with
    | .ok items => buildNodesWith (getFilesFromFolders fs workspaceRoot fuel) items
    | .error e => .error e

/-- Whether the directory at `p` lists an entry named `n`. -/
def listsName (fs : List Entry) (p : Path) (n : String) : Bool :=
  match childrenAt fs p with
  | some cs => cs.any fun e => e.name == n
  | none => false

/-- Whether the directory at `p` lists a directory entry named `n`. -/
def listsDirName (fs : List Entry) (p : Path) (n : String) : Bool :=
  match childrenAt fs p with
  | some cs => cs.any fun e => e.name == n && e.isDir
  | none => false

/-- The resolved physical roots that the merge actually lists, in supplied
order: non-falsy folder names whose resolved path is an existing directory. -/
def existingRoots (fs : List Entry) (workspaceRoot : Path) (isFullPath : Bool)
    (folderNames : List (Option Path)) : List Path :=
  folderNames.filterMap fun o =>
    o.bind fun f =>
      let p := resolveRoot workspaceRoot isFullPath f
      if (childrenAt fs p).isSome then some p else none

/-- The first supplied root (in order) that lists an entry named `n`. -/
def firstRootContaining (fs : List Entry) (workspaceRoot : Path) (isFullPath : Bool)
    (folderNames : List (Option Path)) (n : String) : Option Path :=
  (existingRoots fs workspaceRoot isFullPath folderNames).find? fun p => listsName fs p n

/-- The supplied roots (in order, with multiplicity) that list a directory
entry named `n`: the roots contributing to the merged directory `n`. -/
def rootsListingDirName (fs : List Entry) (workspaceRoot : Path) (isFullPath : Bool)
    (folderNames : List (Option Path)) (n : String) : List Path :=
  (existingRoots fs workspaceRoot isFullPath folderNames).filter fun p => listsDirName fs p n

/-- The supplied folder names restricted to the non-falsy ones whose resolved
path exists on disk (the roots `_getFilesFromFolders` does not skip), in
their original order. -/
def keptRoots (fs : List Entry) (workspaceRoot : Path) (isFullPath : Bool) :
    List (Option Path) → List (Option Path)
  | [] => []
  | none :: rest => keptRoots fs workspaceRoot isFullPath rest
  | some f :: rest =>
    if existsAt fs (resolveRoot workspaceRoot isFullPath f) then
      some f :: keptRoots fs workspaceRoot isFullPath rest
    else keptRoots fs workspaceRoot isFullPath rest

/-- A parsed configuration file (`.fccw` JSON): the three optional directory
fields, as workspace-relative component paths.  A field that is absent or
falsy (the empty string) is `none`; all other JSON keys are ignored by the
code and by the model. -/
structure Config where
  sourceDirectory : Option Path
  resourcesDirectory : Option Path
  includeDirectory : Option Path

/-- One of the two top-level logical sections ("Combined source" /
"Includes"): its label and its eagerly computed children. -/
structure SectionNode where
  label : String
  children : List Node

/-- The "Combined source" section of `_getFoldersFromConfig`: built exactly
when `sourceDirectory` or `resourcesDirectory` is set (truthy), its children
being the merge of those two roots. -/
def combinedSection (fs : List Entry) (workspaceRoot : Path) (fuel : Nat)
    (json : Config) : Except MergeErr (List SectionNode) :=
  if json.sourceDirectory.isSome || json.resourcesDirectory.isSome then
    match getFilesFromFolders fs workspaceRoot fuel
        [json.sourceDirectory, json.resourcesDirectory] false with
    | .ok cs => .ok [{ label := "Combined source", children := cs }]
    | .error e => .error e
  else .ok []

/-- The "Includes" section of `_getFoldersFromConfig`: built exactly when
`includeDirectory` is set (truthy), its children being the merge of that one
root. -/
def includesSection (fs : List Entry) (workspaceRoot : Path) (fuel : Nat)
    (json : Config) : Except MergeErr (List SectionNode) :=
  if json.includeDirectory.isSome then
    match getFilesFromFolders fs workspaceRoot fuel [json.includeDirectory] false with
    | .ok cs => .ok [{ label := "Includes", children := cs }]
    | .error e => .error e
  else .ok []

/-- `_getFoldersFromConfig(json)`: the "Combined source" section (when any of
its two roots is set) followed by the "Includes" section (when its root is
set). -/
def getFoldersFromConfig (fs : List Entry) (workspaceRoot : Path) (fuel : Nat)
    (json : Config) : Except MergeErr (List SectionNode) :=
  match combinedSection fs workspaceRoot fuel json with
  | .ok s1 =>
    match includesSection fs workspaceRoot fuel json with
    | .ok s2 => .ok (s1 ++ s2)
    | .error e => .error e
  | .error e => .error e

/-- JavaScript `s.endsWith(suffix)`: raw character-suffix test. -/
def jsEndsWith (s suffix : String) : Bool :=
  suffix.data.isSuffixOf s.data

mutual

/-- One step of `_findFCCWFiles`: a file whose name ends in `.fccw` is
collected; a directory is descended into. -/
def findFCCWEntry (dirPath : Path) : Entry → List Path
  | .file n => if jsEndsWith n ".fccw" then [dirPath ++ [n]] else []
  | .dir n cs => findFCCWList (dirPath ++ [n]) cs

/-- `_findFCCWFiles(dir)`: full recursive scan in listing order. -/
def findFCCWList (dirPath : Path) : List Entry → List Path
  | [] => []
  | e :: es => findFCCWEntry dirPath e ++ findFCCWList dirPath es

end

/-- `path.basename` of a component path. -/
def basename (p : Path) : String :=
  p.getLastD ""

/-- An item handed to the host at the root of the tree: the informational
leaf shown when no configuration exists, a collapsible per-configuration
grouping node (carrying its `_fccwPath`), or a section node. -/
inductive RootItem where
  | info (label : String)
  | config (label : String) (fccwPath : Path)
  | sec (label : String) (children : List Node)
deriving Repr

/-- `getChildren(undefined)` (the root request): zero configuration files
yields the single informational item; exactly one yields that configuration's
sections directly; several yield one collapsible item per file, labeled by its
basename.  `configAt` stands for `JSON.parse(fs.readFileSync(path))`. -/
def getChildrenRoot (fs : List Entry) (workspaceRoot : Path) (fuel : Nat)
    (configAt : Path → Config) : Except MergeErr (List RootItem) :=
  if (findFCCWList workspaceRoot fs).length = 0 then
    .ok [RootItem.info "No .fccw workspace found"]
  else if (findFCCWList workspaceRoot fs).length = 1 then
    match getFoldersFromConfig fs workspaceRoot fuel
        (configAt ((findFCCWList workspaceRoot fs).headD [])) with
    | .ok secs => .ok (secs.map fun s => RootItem.sec s.label s.children)
    | .error e => .error e
  else
    .ok ((findFCCWList workspaceRoot fs).map fun file => RootItem.config (basename file) file)

/-- `getChildren(element)` for an element carrying `_fccwPath`: parse that
configuration file and return its sections (the lazy expansion of a
per-configuration grouping node). -/
def getChildrenConfig (fs : List Entry) (workspaceRoot : Path) (fuel : Nat)
    (configAt : Path → Config) (fccwPath : Path) : Except MergeErr (List RootItem) :=
  match getFoldersFromConfig fs workspaceRoot fuel (configAt fccwPath) with
  | .ok secs => .ok (secs.map fun s => RootItem.sec s.label s.children)
  | .error e => .error e

/-! ### Helper lemmas about the merge scan -/

/-- `merged.has(f)` agrees with looking the item up. -/
theorem contains_eq_find?_isSome (acc : List PreItem) (n : String) :
    (acc.map PreItem.name).contains n = (acc.find? fun it => it.name == n).isSome := by
  induction acc with
  | nil => rfl
  | cons it rest ih =>
    rw [List.map_cons, List.contains_cons, List.find?_cons]
    cases h : (it.name == n) with
    | true =>
      have h2 : (n == it.name) = true := by
        rw [beq_iff_eq] at h ⊢
        exact h.symm
      simp only [h2, Bool.true_or, Option.isSome_some]
    | false =>
      have h2 : (n == it.name) = false := by
        rw [beq_eq_false_iff_ne] at h ⊢
        exact fun hn => h hn.symm
      simp only [h2, Bool.false_or, ih]

/-- In a list of items with pairwise distinct names, looking up an element's
own name finds that element. -/
theorem find?_eq_self_of_mem_nodup {acc : List PreItem}
    (hnd : (acc.map PreItem.name).Nodup) {it : PreItem} (hmem : it ∈ acc) :
    acc.find? (fun x => x.name == it.name) = some it := by
  induction acc with
  | nil => simp at hmem
  | cons hd rest ih =>
    have hnd' := hnd
    rw [List.map_cons] at hnd'
    rcases List.mem_cons.mp hmem with rfl | hmem'
    · simp [List.find?_cons]
    · have hne : hd.name ≠ it.name := by
        intro he
        have hmm : it.name ∈ rest.map PreItem.name := List.mem_map_of_mem PreItem.name hmem'
        exact (List.nodup_cons.mp hnd').1 (by rw [he]; exact hmm)
      have h' : (hd.name == it.name) = false := by simp [hne]
      rw [List.find?_cons]
      simp only [h']
      exact ih (List.nodup_cons.mp hnd').2 hmem'

/-- Well-formedness of a listing passes to its members. -/
theorem wfE_of_mem {es : List Entry} (h : wfL es = true) {e : Entry} (hm : e ∈ es) :
    wfE e = true := by
  induction es with
  | nil => simp at hm
  | cons hd rest ih =>
    rw [wfL] at h
    rcases List.mem_cons.mp hm with rfl | hm'
    · exact (Bool.and_eq_true_iff.mp h).1
    · exact ih (Bool.and_eq_true_iff.mp h).2 hm'

/-- Well-formedness descends through `childrenAt`. -/
theorem wfFS_childrenAt :
    ∀ (p : Path) (fs cs : List Entry), wfFS fs = true → childrenAt fs p = some cs →
      wfFS cs = true := by
  intro p
  induction p with
  | nil =>
    intro fs cs h hc
    rw [childrenAt] at hc
    cases hc
    exact h
  | cons n rest ih =>
    intro fs cs h hc
    rw [childrenAt] at hc
    cases hfind : findE fs n with
    | none => rw [hfind] at hc; cases hc
    | some e =>
      cases e with
      | file m => rw [hfind] at hc; cases hc
      | dir m cs0 =>
        rw [hfind] at hc
        have hmem : Entry.dir m cs0 ∈ fs := List.mem_of_find?_eq_some hfind
        have hwfL : wfL fs = true := (Bool.and_eq_true_iff.mp h).2
        have hwfE : wfE (Entry.dir m cs0) = true := wfE_of_mem hwfL hmem
        rw [wfE] at hwfE
        exact ih cs0 cs hwfE hc

/-- The names below a well-formed directory are pairwise distinct. -/
theorem namesNodup_of_wfFS {fs : List Entry} (h : wfFS fs = true) :
    (fs.map Entry.name).Nodup := by
  have := (Bool.and_eq_true_iff.mp h).1
  rw [namesNodupB] at this
  exact of_decide_eq_true this

/-- A path with a listing exists. -/
theorem existsAt_of_childrenAt_isSome :
    ∀ (p : Path) (fs : List Entry), (childrenAt fs p).isSome = true → existsAt fs p = true := by
  intro p
  induction p with
  | nil => intro fs _; rfl
  | cons n rest ih =>
    intro fs h
    rw [childrenAt] at h
    rw [existsAt]
    cases hfind : findE fs n with
    | none => rw [hfind] at h; simp at h
    | some e =>
      cases e with
      | file m => rw [hfind] at h; simp at h
      | dir m cs0 =>
        rw [hfind] at h
        exact ih cs0 h

/-- Whether the entry the first scan of root `r` finds for name `n` is a
directory (with unique names: whether `n` is a directory of `r`). -/
def firstEntryIsDir (fs : List Entry) (r : Path) (n : String) : Bool :=
  match childrenAt fs r with
  | some cs =>
    match findE cs n with
    | some e => e.isDir
    | none => false
  | none => false

/-- `any` agrees with `find?`. -/
theorem any_eq_find?_isSome (p : α → Bool) (l : List α) :
    l.any p = (l.find? p).isSome := by
  induction l with
  | nil => rfl
  | cons a l ih =>
    rw [List.any_cons, List.find?_cons]
    cases h : p a with
    | true => simp
    | false => simp [ih]

/-- No entry of an unlisted name satisfies a name-guarded scan. -/
theorem any_name_eq_false {rest : List Entry} {n : String}
    (h : n ∉ rest.map Entry.name) (q : Entry → Bool) :
    rest.any (fun e => (e.name == n) && q e) = false := by
  induction rest with
  | nil => rfl
  | cons e rest ih =>
    rw [List.any_cons]
    have hne : e.name ≠ n := by
      intro he
      exact h (by rw [List.map_cons, he]; exact List.mem_cons_self _ _)
    have h1 : (e.name == n) = false := by simp [hne]
    rw [h1, Bool.false_and, Bool.false_or]
    exact ih fun hm => h (by rw [List.map_cons]; exact List.mem_cons_of_mem _ hm)

/-- A root lists name `n` exactly when the listing has an entry named `n`. -/
theorem listsName_eq_findE {fs : List Entry} {r : Path} {cs : List Entry}
    (h : childrenAt fs r = some cs) (n : String) :
    listsName fs r n = (findE cs n).isSome := by
  rw [listsName, h, findE]
  exact any_eq_find?_isSome _ cs

/-- Under unique names, a directory-guarded `any` agrees with the entry
`find?` finds. -/
theorem any_dir_eq_findE_isDir :
    ∀ (cs : List Entry), (cs.map Entry.name).Nodup → ∀ (n : String),
      (cs.any fun e => (e.name == n) && e.isDir) =
        (match findE cs n with | some e => e.isDir | none => false) := by
  intro cs
  induction cs with
  | nil => intro _ n; rfl
  | cons e rest ih =>
    intro hnd n
    rw [List.map_cons] at hnd
    rw [List.any_cons, findE, List.find?_cons]
    cases hf : (e.name == n) with
    | true =>
      have hen : e.name = n := by rwa [beq_iff_eq] at hf
      have hnr : n ∉ rest.map Entry.name := by
        rw [← hen]
        exact (List.nodup_cons.mp hnd).1
      rw [Bool.true_and, any_name_eq_false hnr Entry.isDir, Bool.or_false]
    | false =>
      rw [Bool.false_and, Bool.false_or]
      have hr := ih (List.nodup_cons.mp hnd).2 n
      rw [findE] at hr
      exact hr

/-- Under unique names, a root lists `n` as a directory exactly when the entry
found for `n` is a directory. -/
theorem listsDirName_eq_firstEntryIsDir {fs : List Entry} {r : Path} {cs : List Entry}
    (h : childrenAt fs r = some cs) (hnd : (cs.map Entry.name).Nodup) (n : String) :
    listsDirName fs r n = firstEntryIsDir fs r n := by
  rw [listsDirName, firstEntryIsDir, h]
  exact any_dir_eq_findE_isDir cs hnd n

/-- An unlisted name finds no entry. -/
theorem findE_eq_none_of_not_mem {es : List Entry} {n : String}
    (h : n ∉ es.map Entry.name) : findE es n = none := by
  rw [findE, List.find?_eq_none]
  intro e hm
  simp only [beq_eq_false_iff_ne, ne_eq, beq_iff_eq]
  intro he
  exact h (by rw [← he]; exact List.mem_map_of_mem Entry.name hm)

/-- `push` keeps all item names. -/
theorem pushMergePath_map_name :
    ∀ (acc : List PreItem) (n : String) (q : Path) (acc' : List PreItem),
      pushMergePath acc n q = .ok acc' → acc'.map PreItem.name = acc.map PreItem.name := by
  intro acc
  induction acc with
  | nil => intro n q acc' h; exact absurd h (by rw [pushMergePath]; exact fun hh => nomatch hh)
  | cons it rest ih =>
    intro n q acc' h
    rw [pushMergePath] at h
    by_cases he : it.name = n
    · rw [if_pos he] at h
      cases hm : it.mergePaths with
      | some ps => rw [hm] at h; cases h; rfl
      | none => rw [hm] at h; exact nomatch h
    · rw [if_neg he] at h
      cases hr : pushMergePath rest n q with
      | ok rest2 =>
        rw [hr] at h
        cases h
        rw [List.map_cons, List.map_cons, ih n q rest2 hr]
      | error e => rw [hr] at h; exact nomatch h

/-- `push` leaves items of other names alone. -/
theorem pushMergePath_find?_ne :
    ∀ (acc : List PreItem) (n : String) (q : Path) (acc' : List PreItem) (m : String),
      pushMergePath acc n q = .ok acc' → m ≠ n →
      acc'.find? (fun it => it.name == m) = acc.find? (fun it => it.name == m) := by
  intro acc
  induction acc with
  | nil => intro n q acc' m h _; exact absurd h (by rw [pushMergePath]; exact fun hh => nomatch hh)
  | cons it rest ih =>
    intro n q acc' m h hne
    rw [pushMergePath] at h
    by_cases he : it.name = n
    · rw [if_pos he] at h
      cases hm : it.mergePaths with
      | some ps =>
        rw [hm] at h
        cases h
        have hnm : (it.name == m) = false := by
          simp only [beq_eq_false_iff_ne, ne_eq]
          rw [he]
          exact fun hh => hne hh.symm
        rw [List.find?_cons, List.find?_cons]
        simp only [hnm]
      | none => rw [hm] at h; exact nomatch h
    · rw [if_neg he] at h
      cases hr : pushMergePath rest n q with
      | ok rest2 =>
        rw [hr] at h
        cases h
        rw [List.find?_cons, List.find?_cons]
        cases hit : (it.name == m) with
        | true => rfl
        | false => exact ih n q rest2 m hr hne
      | error e => rw [hr] at h; exact nomatch h

/-- `push` appends the path to the `_mergePaths` of the first item of that
name (which, for the call to succeed, must have one). -/
theorem pushMergePath_find?_eq :
    ∀ (acc : List PreItem) (n : String) (q : Path) (acc' : List PreItem),
      pushMergePath acc n q = .ok acc' →
      acc'.find? (fun it => it.name == n) =
        (acc.find? fun it => it.name == n).map
          fun it => { it with mergePaths := it.mergePaths.map (· ++ [q]) } := by
  intro acc
  induction acc with
  | nil => intro n q acc' h; exact absurd h (by rw [pushMergePath]; exact fun hh => nomatch hh)
  | cons it rest ih =>
    intro n q acc' h
    rw [pushMergePath] at h
    by_cases he : it.name = n
    · rw [if_pos he] at h
      cases hm : it.mergePaths with
      | some ps =>
        rw [hm] at h
        cases h
        have ht : (it.name == n) = true := by simp [he]
        have hupd : ({ it with mergePaths := some (ps ++ [q]) } : PreItem) =
            { it with mergePaths := it.mergePaths.map (· ++ [q]) } := by
          rw [hm]
          rfl
        rw [List.find?_cons, List.find?_cons]
        simp only [ht]
        rw [hupd]
        rfl
      | none => rw [hm] at h; exact nomatch h
    · rw [if_neg he] at h
      cases hr : pushMergePath rest n q with
      | ok rest2 =>
        rw [hr] at h
        cases h
        have hf : (it.name == n) = false := by simp [he]
        rw [List.find?_cons, List.find?_cons]
        simp only [hf]
        exact ih n q rest2 hr
      | error e => rw [hr] at h; exact nomatch h

/-- `contains` is membership. -/
theorem contains_eq_true_iff_mem (l : List String) (a : String) :
    l.contains a = true ↔ a ∈ l := by
  simp

/-- Membership at the end of a list does not change `contains` of other
values. -/
theorem contains_append_single (l : List String) (f m : String) (h : m ≠ f) :
    (l ++ [f]).contains m = l.contains m := by
  induction l with
  | nil => simp [h]
  | cons a l ih => rw [List.cons_append, List.contains_cons, List.contains_cons, ih]

/-- Appending a fresh item makes it findable under its name. -/
theorem find?_append_single_eq (acc : List PreItem) (nm : String) (u : Path) (d : Bool)
    (mp : Option (List Path)) (h : acc.find? (fun it => it.name == nm) = none) :
    (acc ++ [(⟨nm, u, d, mp⟩ : PreItem)]).find? (fun it => it.name == nm) =
      some (⟨nm, u, d, mp⟩ : PreItem) := by
  rw [List.find?_append, h, Option.none_or, List.find?_cons]
  simp

/-- Appending an item leaves lookups of other names alone. -/
theorem find?_append_single_ne (acc : List PreItem) (nm : String) (u : Path) (d : Bool)
    (mp : Option (List Path)) (m : String) (hne : nm ≠ m) :
    (acc ++ [(⟨nm, u, d, mp⟩ : PreItem)]).find? (fun it => it.name == m) =
      acc.find? (fun it => it.name == m) := by
  rw [List.find?_append, List.find?_cons]
  have hb : ((⟨nm, u, d, mp⟩ : PreItem).name == m) = false := by simp [hne]
  simp only [hb, List.find?_nil, Option.or_none]

/-- What scanning the listing of one root does to the item found for each
name: an existing item of that name gets the root's path appended to its
`_mergePaths` when the root lists the name as a directory (which must exist
for the scan to succeed), and is untouched otherwise; a fresh name gets a new
item with this root's path as its `resourceUri`. -/
theorem scanEntries_find? (p : Path) :
    ∀ (es : List Entry) (acc acc' : List PreItem),
      (es.map Entry.name).Nodup →
      scanEntries p es acc = .ok acc' →
      ∀ (n : String),
        acc'.find? (fun it => it.name == n) =
          match acc.find? (fun it => it.name == n), findE es n with
          | some it, some e =>
            if e.isDir then some { it with mergePaths := it.mergePaths.map (· ++ [p ++ [n]]) }
            else some it
          | some it, none => some it
          | none, some e => some ⟨n, p ++ [n], e.isDir, if e.isDir then some [p ++ [n]] else none⟩
          | none, none => none := by
  intro es
  induction es with
  | nil =>
    intro acc acc' _ h n
    rw [scanEntries] at h
    cases h
    simp only [findE, List.find?_nil]
    cases hf : acc.find? (fun it => it.name == n) with
    | some it => rfl
    | none => rfl
  | cons e es ih =>
    intro acc acc' hnd h n
    rw [List.map_cons] at hnd
    have hnd2 := (List.nodup_cons.mp hnd).2
    have hfnotin := (List.nodup_cons.mp hnd).1
    rw [scanEntries] at h
    by_cases hc : ((acc.map PreItem.name).contains e.name) = true
    · rw [if_pos hc] at h
      have hsome : (acc.find? fun it => it.name == e.name).isSome = true := by
        rw [← contains_eq_find?_isSome]; exact hc
      obtain ⟨it, hit⟩ := Option.isSome_iff_exists.mp hsome
      by_cases hd : e.isDir = true
      · rw [if_pos hd] at h
        cases hp : pushMergePath acc e.name (p ++ [e.name]) with
        | error err => rw [hp] at h; exact nomatch h
        | ok acc2 =>
          rw [hp] at h
          have key := ih acc2 acc' hnd2 h n
          by_cases hn : n = e.name
          · have h2 : acc2.find? (fun x => x.name == e.name) =
                some { it with mergePaths := it.mergePaths.map (· ++ [p ++ [e.name]]) } := by
              rw [pushMergePath_find?_eq acc e.name (p ++ [e.name]) acc2 hp, hit]
              rfl
            have hfe : findE es e.name = none := findE_eq_none_of_not_mem hfnotin
            have hfe2 : findE (e :: es) e.name = some e := by
              rw [findE, List.find?_cons]
              simp
            subst hn
            rw [h2, hfe] at key
            rw [hit, hfe2]
            cases e with
            | file f => rw [Entry.isDir] at hd; exact nomatch hd
            | dir f cs => exact key
          · have h2 : acc2.find? (fun x => x.name == n) = acc.find? (fun x => x.name == n) :=
              pushMergePath_find?_ne acc e.name (p ++ [e.name]) acc2 n hp hn
            rw [h2] at key
            have hfe3 : findE (e :: es) n = findE es n := by
              rw [findE, findE, List.find?_cons]
              have hb : (e.name == n) = false := by
                simp only [beq_eq_false_iff_ne, ne_eq]
                exact fun hh => hn hh.symm
              simp only [hb]
            rw [hfe3]
            exact key
      · rw [if_neg hd] at h
        have key := ih acc acc' hnd2 h n
        by_cases hn : n = e.name
        · have hfe : findE es e.name = none := findE_eq_none_of_not_mem hfnotin
          have hfe2 : findE (e :: es) e.name = some e := by
            rw [findE, List.find?_cons]
            simp
          have hd' : e.isDir = false := by
            cases hdd : e.isDir with
            | true => exact absurd hdd hd
            | false => rfl
          subst hn
          rw [hit, hfe] at key
          rw [hit, hfe2]
          cases e with
          | file f => exact key
          | dir f cs => rw [Entry.isDir] at hd'; exact nomatch hd'
        · have hfe3 : findE (e :: es) n = findE es n := by
            rw [findE, findE, List.find?_cons]
            have hb : (e.name == n) = false := by
              simp only [beq_eq_false_iff_ne, ne_eq]
              exact fun hh => hn hh.symm
            simp only [hb]
          rw [hfe3]
          exact key
    · rw [if_neg hc] at h
      have hnone : acc.find? (fun it => it.name == e.name) = none := by
        cases hf : acc.find? (fun it => it.name == e.name) with
        | none => rfl
        | some it =>
          exact absurd (by rw [contains_eq_find?_isSome, hf]; rfl) hc
      have key := ih _ acc' hnd2 h n
      by_cases hn : n = e.name
      · have happ := find?_append_single_eq acc e.name (p ++ [e.name]) e.isDir
          (if e.isDir then some [p ++ [e.name]] else none) hnone
        have hfe : findE es e.name = none := findE_eq_none_of_not_mem hfnotin
        have hfe2 : findE (e :: es) e.name = some e := by
          rw [findE, List.find?_cons]
          simp
        subst hn
        rw [happ, hfe] at key
        rw [hnone, hfe2]
        exact key
      · have happ := find?_append_single_ne acc e.name (p ++ [e.name]) e.isDir
          (if e.isDir then some [p ++ [e.name]] else none) n (fun hh => hn hh.symm)
        rw [happ] at key
        have hfe3 : findE (e :: es) n = findE es n := by
          rw [findE, findE, List.find?_cons]
          have hb : (e.name == n) = false := by
            simp only [beq_eq_false_iff_ne, ne_eq]
            exact fun hh => hn hh.symm
          simp only [hb]
        rw [hfe3]
        exact key

/-- Scanning one root appends exactly the fresh names, in listing order. -/
theorem scanEntries_map_name (p : Path) :
    ∀ (es : List Entry) (acc acc' : List PreItem),
      (es.map Entry.name).Nodup →
      scanEntries p es acc = .ok acc' →
      acc'.map PreItem.name =
        acc.map PreItem.name ++
          (es.map Entry.name).filter (fun n => !(acc.map PreItem.name).contains n) := by
  intro es
  induction es with
  | nil =>
    intro acc acc' _ h
    rw [scanEntries] at h
    cases h
    simp
  | cons e es ih =>
    intro acc acc' hnd h
    rw [List.map_cons] at hnd
    have hnd2 := (List.nodup_cons.mp hnd).2
    have hfnotin := (List.nodup_cons.mp hnd).1
    rw [scanEntries] at h
    rw [List.map_cons, List.filter_cons]
    by_cases hc : ((acc.map PreItem.name).contains e.name) = true
    · rw [if_pos hc] at h
      have hcb : (!(acc.map PreItem.name).contains e.name) = false := by rw [hc]; rfl
      rw [hcb]
      simp only [Bool.false_eq_true, if_false]
      by_cases hd : e.isDir = true
      · rw [if_pos hd] at h
        cases hp : pushMergePath acc e.name (p ++ [e.name]) with
        | error err => rw [hp] at h; exact nomatch h
        | ok acc2 =>
          rw [hp] at h
          have hnames := pushMergePath_map_name acc e.name (p ++ [e.name]) acc2 hp
          have key := ih acc2 acc' hnd2 h
          rw [hnames] at key
          exact key
      · rw [if_neg hd] at h
        exact ih acc acc' hnd2 h
    · rw [if_neg hc] at h
      have hcb : (!(acc.map PreItem.name).contains e.name) = true := by
        cases hcc : (acc.map PreItem.name).contains e.name with
        | true => exact absurd hcc hc
        | false => rfl
      rw [hcb]
      simp only [if_true]
      have key := ih _ acc' hnd2 h
      rw [List.map_append] at key
      have hmapone :
          (([(⟨e.name, p ++ [e.name], e.isDir,
              if e.isDir then some [p ++ [e.name]] else none⟩ : PreItem)]).map PreItem.name) =
            [e.name] := rfl
      rw [hmapone] at key
      have hfilter :
          (es.map Entry.name).filter
              (fun n => !((acc.map PreItem.name ++ [e.name]).contains n)) =
            (es.map Entry.name).filter (fun n => !(acc.map PreItem.name).contains n) := by
        apply List.filter_congr
        intro n hn
        have hne : n ≠ e.name := fun he => hfnotin (he ▸ hn)
        rw [contains_append_single _ _ _ hne]
      rw [hfilter] at key
      rw [key, List.append_assoc]
      rfl

/-- Scanning one root keeps item names pairwise distinct. -/
theorem scanEntries_nodup (p : Path) (es : List Entry) (acc acc' : List PreItem)
    (hnd : (es.map Entry.name).Nodup) (hacc : (acc.map PreItem.name).Nodup)
    (h : scanEntries p es acc = .ok acc') : (acc'.map PreItem.name).Nodup := by
  rw [scanEntries_map_name p es acc acc' hnd h]
  rw [List.nodup_append]
  refine ⟨hacc, (hnd.filter _), ?_⟩
  intro n hn hnf
  have hpred := (List.mem_filter.mp hnf).2
  have : (acc.map PreItem.name).contains n = true :=
    (contains_eq_true_iff_mem _ n).mpr hn
  rw [this] at hpred
  exact nomatch hpred

/-- A falsy folder name contributes no root. -/
theorem existingRoots_none_cons (fs : List Entry) (ws : Path) (ifp : Bool)
    (rest : List (Option Path)) :
    existingRoots fs ws ifp (none :: rest) = existingRoots fs ws ifp rest := by
  rw [existingRoots, List.filterMap_cons, existingRoots]
  rfl

/-- A listable root is kept. -/
theorem existingRoots_some_cons_isSome {fs : List Entry} {ws : Path} {ifp : Bool}
    {f : Path} (rest : List (Option Path))
    (h : (childrenAt fs (resolveRoot ws ifp f)).isSome = true) :
    existingRoots fs ws ifp (some f :: rest) =
      resolveRoot ws ifp f :: existingRoots fs ws ifp rest := by
  rw [existingRoots, List.filterMap_cons, existingRoots]
  simp only [Option.some_bind, h, if_true]

/-- A non-listable root is dropped. -/
theorem existingRoots_some_cons_none {fs : List Entry} {ws : Path} {ifp : Bool}
    {f : Path} (rest : List (Option Path))
    (h : (childrenAt fs (resolveRoot ws ifp f)).isSome = false) :
    existingRoots fs ws ifp (some f :: rest) = existingRoots fs ws ifp rest := by
  rw [existingRoots, List.filterMap_cons, existingRoots]
  simp only [Option.some_bind, h]
  rfl

/-- Cons equations for the dir-contributing roots. -/
theorem rootsListingDirName_none_cons (fs : List Entry) (ws : Path) (ifp : Bool)
    (rest : List (Option Path)) (n : String) :
    rootsListingDirName fs ws ifp (none :: rest) n = rootsListingDirName fs ws ifp rest n := by
  rw [rootsListingDirName, existingRoots_none_cons, rootsListingDirName]

theorem rootsListingDirName_cons_skip {fs : List Entry} {ws : Path} {ifp : Bool}
    {f : Path} (rest : List (Option Path)) (n : String)
    (h : (childrenAt fs (resolveRoot ws ifp f)).isSome = false) :
    rootsListingDirName fs ws ifp (some f :: rest) n = rootsListingDirName fs ws ifp rest n := by
  rw [rootsListingDirName, existingRoots_some_cons_none rest h, rootsListingDirName]

theorem rootsListingDirName_cons_true {fs : List Entry} {ws : Path} {ifp : Bool}
    {f : Path} (rest : List (Option Path)) {n : String}
    (hch : (childrenAt fs (resolveRoot ws ifp f)).isSome = true)
    (hld : listsDirName fs (resolveRoot ws ifp f) n = true) :
    rootsListingDirName fs ws ifp (some f :: rest) n =
      resolveRoot ws ifp f :: rootsListingDirName fs ws ifp rest n := by
  rw [rootsListingDirName, existingRoots_some_cons_isSome rest hch, List.filter_cons]
  simp only [hld, if_true]
  rfl

theorem rootsListingDirName_cons_false {fs : List Entry} {ws : Path} {ifp : Bool}
    {f : Path} (rest : List (Option Path)) {n : String}
    (hch : (childrenAt fs (resolveRoot ws ifp f)).isSome = true)
    (hld : listsDirName fs (resolveRoot ws ifp f) n = false) :
    rootsListingDirName fs ws ifp (some f :: rest) n = rootsListingDirName fs ws ifp rest n := by
  rw [rootsListingDirName, existingRoots_some_cons_isSome rest hch, List.filter_cons]
  simp only [hld]
  rfl

/-- Cons equations for the first containing root. -/
theorem firstRootContaining_none_cons (fs : List Entry) (ws : Path) (ifp : Bool)
    (rest : List (Option Path)) (n : String) :
    firstRootContaining fs ws ifp (none :: rest) n = firstRootContaining fs ws ifp rest n := by
  rw [firstRootContaining, existingRoots_none_cons, firstRootContaining]

theorem firstRootContaining_cons_skip {fs : List Entry} {ws : Path} {ifp : Bool}
    {f : Path} (rest : List (Option Path)) (n : String)
    (h : (childrenAt fs (resolveRoot ws ifp f)).isSome = false) :
    firstRootContaining fs ws ifp (some f :: rest) n = firstRootContaining fs ws ifp rest n := by
  rw [firstRootContaining, existingRoots_some_cons_none rest h, firstRootContaining]

theorem firstRootContaining_cons_true {fs : List Entry} {ws : Path} {ifp : Bool}
    {f : Path} (rest : List (Option Path)) {n : String}
    (hch : (childrenAt fs (resolveRoot ws ifp f)).isSome = true)
    (hln : listsName fs (resolveRoot ws ifp f) n = true) :
    firstRootContaining fs ws ifp (some f :: rest) n = some (resolveRoot ws ifp f) := by
  rw [firstRootContaining, existingRoots_some_cons_isSome rest hch, List.find?_cons]
  simp only [hln]

theorem firstRootContaining_cons_false {fs : List Entry} {ws : Path} {ifp : Bool}
    {f : Path} (rest : List (Option Path)) {n : String}
    (hch : (childrenAt fs (resolveRoot ws ifp f)).isSome = true)
    (hln : listsName fs (resolveRoot ws ifp f) n = false) :
    firstRootContaining fs ws ifp (some f :: rest) n = firstRootContaining fs ws ifp rest n := by
  rw [firstRootContaining, existingRoots_some_cons_isSome rest hch, List.find?_cons]
  simp only [hln]
  rfl

/-- Two successive `_mergePaths` extensions compose. -/
theorem item_upd_upd (it : PreItem) (q : Path) (L : List Path) :
    ({ it with mergePaths := (it.mergePaths.map (· ++ [q])).map (· ++ L) } : PreItem) =
    { it with mergePaths := it.mergePaths.map (· ++ (q :: L)) } := by
  cases it with
  | mk nm u d mp =>
    cases mp with
    | none => rfl
    | some ps => simp

/-- Extending `_mergePaths` by nothing is the identity. -/
theorem item_upd_nil (it : PreItem) :
    ({ it with mergePaths := it.mergePaths.map (· ++ ([] : List Path)) } : PreItem) = it := by
  cases it with
  | mk nm u d mp =>
    cases mp with
    | none => rfl
    | some ps => simp

/-- What the whole root scan does to the item found for each name: an item
already in the accumulator collects the contributing directory roots of the
scanned list; a fresh name is created at its first containing root, with that
root's path as `resourceUri`, and (when that first entry is a directory)
`_mergePaths` holding every contributing directory root in order. -/
theorem scanRoots_find? (fs : List Entry) (ws : Path) (ifp : Bool) (hwf : wfFS fs = true) :
    ∀ (ns : List (Option Path)) (acc acc' : List PreItem),
      scanRoots fs ws ifp ns acc = .ok acc' →
      ∀ (n : String),
        acc'.find? (fun it => it.name == n) =
          match acc.find? (fun it => it.name == n) with
          | some it =>
            some { it with mergePaths :=
              it.mergePaths.map (· ++ (rootsListingDirName fs ws ifp ns n).map (· ++ [n])) }
          | none =>
            match firstRootContaining fs ws ifp ns n with
            | some r =>
              some ⟨n, r ++ [n], firstEntryIsDir fs r n,
                if firstEntryIsDir fs r n then
                  some ((rootsListingDirName fs ws ifp ns n).map (· ++ [n]))
                else none⟩
            | none => none := by
  intro ns
  induction ns with
  | nil =>
    intro acc acc' h n
    rw [scanRoots] at h
    cases h
    cases hf : acc.find? (fun it => it.name == n) with
    | some it =>
      exact (congrArg some (item_upd_nil it)).symm
    | none =>
      rfl
  | cons o rest ih =>
    intro acc acc' h n
    cases o with
    | none =>
      rw [scanRoots] at h
      rw [rootsListingDirName_none_cons, firstRootContaining_none_cons]
      exact ih acc acc' h n
    | some f =>
      rw [scanRoots] at h
      cases hex : existsAt fs (resolveRoot ws ifp f) with
      | false =>
        rw [if_neg (by intro hh; rw [hex] at hh; exact nomatch hh)] at h
        have hchN : (childrenAt fs (resolveRoot ws ifp f)).isSome = false := by
          cases hcc : (childrenAt fs (resolveRoot ws ifp f)).isSome with
          | false => rfl
          | true =>
            have := existsAt_of_childrenAt_isSome (resolveRoot ws ifp f) fs hcc
            rw [this] at hex
            exact nomatch hex
        rw [rootsListingDirName_cons_skip rest n hchN, firstRootContaining_cons_skip rest n hchN]
        exact ih acc acc' h n
      | true =>
        rw [if_pos hex] at h
        cases hch : childrenAt fs (resolveRoot ws ifp f) with
        | none =>
          rw [hch] at h
          have hbad : (Except.error MergeErr.fsError : Except MergeErr (List PreItem)) =
              Except.ok acc' := h
          exact nomatch hbad
        | some es =>
          rw [hch] at h
          have h2 : (match scanEntries (resolveRoot ws ifp f) es acc with
              | Except.ok acc2 => scanRoots fs ws ifp rest acc2
              | Except.error e => Except.error e) = Except.ok acc' := h
          cases hse : scanEntries (resolveRoot ws ifp f) es acc with
          | error err => rw [hse] at h2; exact nomatch h2
          | ok acc2 =>
            rw [hse] at h2
            have h3 : scanRoots fs ws ifp rest acc2 = Except.ok acc' := h2
            have hchS : (childrenAt fs (resolveRoot ws ifp f)).isSome = true := by
              rw [hch]; rfl
            have hwfes : wfFS es = true :=
              wfFS_childrenAt (resolveRoot ws ifp f) fs es hwf hch
            have hnodupes : (es.map Entry.name).Nodup := namesNodup_of_wfFS hwfes
            have inner := scanEntries_find? (resolveRoot ws ifp f) es acc acc2 hnodupes hse n
            have key := ih acc2 acc' h3 n
            cases hfe : findE es n with
            | some e =>
              rw [hfe] at inner
              have hln : listsName fs (resolveRoot ws ifp f) n = true := by
                rw [listsName_eq_findE hch, hfe]
                rfl
              have hFE : firstEntryIsDir fs (resolveRoot ws ifp f) n = e.isDir := by
                rw [firstEntryIsDir, hch]
                show (match findE es n with
                  | some e => e.isDir
                  | none => false) = e.isDir
                rw [hfe]
              cases e with
              | dir d0 cs0 =>
                have hld : listsDirName fs (resolveRoot ws ifp f) n = true := by
                  rw [listsDirName_eq_firstEntryIsDir hch hnodupes, hFE]
                  rfl
                rw [rootsListingDirName_cons_true rest hchS hld,
                    firstRootContaining_cons_true rest hchS hln]
                cases hacc : acc.find? (fun it => it.name == n) with
                | some it =>
                  rw [hacc] at inner
                  have hacc2 : acc2.find? (fun x => x.name == n) =
                      some { it with mergePaths :=
                        it.mergePaths.map (· ++ [resolveRoot ws ifp f ++ [n]]) } := by
                    rw [inner]
                    rfl
                  rw [hacc2] at key
                  have key2 : acc'.find? (fun it => it.name == n) =
                      some (⟨it.name, it.resourceUri, it.isDir, it.mergePaths.map
                          (· ++ ((resolveRoot ws ifp f ++ [n]) ::
                            (rootsListingDirName fs ws ifp rest n).map (· ++ [n])))⟩ : PreItem) :=
                    key.trans (congrArg some (item_upd_upd it (resolveRoot ws ifp f ++ [n])
                      ((rootsListingDirName fs ws ifp rest n).map (· ++ [n]))))
                  exact key2
                | none =>
                  rw [hacc] at inner
                  have hacc2 : acc2.find? (fun x => x.name == n) =
                      some ⟨n, resolveRoot ws ifp f ++ [n], true,
                        some [resolveRoot ws ifp f ++ [n]]⟩ := by
                    rw [inner]
                    rfl
                  rw [hacc2] at key
                  show acc'.find? (fun it => it.name == n) =
                    some (⟨n, resolveRoot ws ifp f ++ [n],
                      firstEntryIsDir fs (resolveRoot ws ifp f) n,
                      if firstEntryIsDir fs (resolveRoot ws ifp f) n = true then
                        some ((resolveRoot ws ifp f ::
                          rootsListingDirName fs ws ifp rest n).map (· ++ [n]))
                      else none⟩ : PreItem)
                  rw [hFE]
                  exact key
              | file f0 =>
                have hld : listsDirName fs (resolveRoot ws ifp f) n = false := by
                  rw [listsDirName_eq_firstEntryIsDir hch hnodupes, hFE]
                  rfl
                rw [rootsListingDirName_cons_false rest hchS hld,
                    firstRootContaining_cons_true rest hchS hln]
                cases hacc : acc.find? (fun it => it.name == n) with
                | some it =>
                  rw [hacc] at inner
                  have hacc2 : acc2.find? (fun x => x.name == n) = some it := by
                    rw [inner]
                    rfl
                  rw [hacc2] at key
                  exact key
                | none =>
                  rw [hacc] at inner
                  have hacc2 : acc2.find? (fun x => x.name == n) =
                      some ⟨n, resolveRoot ws ifp f ++ [n], false, none⟩ := by
                    rw [inner]
                    rfl
                  rw [hacc2] at key
                  show acc'.find? (fun it => it.name == n) =
                    some (⟨n, resolveRoot ws ifp f ++ [n],
                      firstEntryIsDir fs (resolveRoot ws ifp f) n,
                      if firstEntryIsDir fs (resolveRoot ws ifp f) n = true then
                        some ((rootsListingDirName fs ws ifp rest n).map (· ++ [n]))
                      else none⟩ : PreItem)
                  rw [hFE]
                  exact key
            | none =>
              rw [hfe] at inner
              have hln : listsName fs (resolveRoot ws ifp f) n = false := by
                rw [listsName_eq_findE hch, hfe]
                rfl
              have hld : listsDirName fs (resolveRoot ws ifp f) n = false := by
                rw [listsDirName_eq_firstEntryIsDir hch hnodupes, firstEntryIsDir, hch]
                show (match findE es n with
                  | some e => e.isDir
                  | none => false) = false
                rw [hfe]
              rw [rootsListingDirName_cons_false rest hchS hld,
                  firstRootContaining_cons_false rest hchS hln]
              cases hacc : acc.find? (fun it => it.name == n) with
              | some it =>
                rw [hacc] at inner
                have hacc2 : acc2.find? (fun x => x.name == n) = some it := by
                  rw [inner]
                rw [hacc2] at key
                exact key
              | none =>
                rw [hacc] at inner
                have hacc2 : acc2.find? (fun x => x.name == n) = none := by
                  rw [inner]
                rw [hacc2] at key
                exact key

/-- Pushing onto the `_mergePaths` of an item that has none (a file item) can
never succeed: `undefined.push` throws. -/
theorem pushMergePath_not_ok_of_none :
    ∀ (acc : List PreItem) (n : String) (q : Path) (it : PreItem),
      acc.find? (fun x => x.name == n) = some it → it.mergePaths = none →
      ∀ acc2, pushMergePath acc n q ≠ .ok acc2 := by
  intro acc
  induction acc with
  | nil =>
    intro n q it hf
    rw [List.find?_nil] at hf
    exact nomatch hf
  | cons hd rest ih =>
    intro n q it hf hmp acc2 hok
    rw [pushMergePath] at hok
    rw [List.find?_cons] at hf
    by_cases he : hd.name = n
    · rw [if_pos he] at hok
      have hb : (hd.name == n) = true := by simp [he]
      simp only [hb] at hf
      have hf2 : some hd = some it := hf
      cases hf2
      rw [hmp] at hok
      exact nomatch hok
    · rw [if_neg he] at hok
      have hb : (hd.name == n) = false := by simp [he]
      simp only [hb] at hf
      cases hp : pushMergePath rest n q with
      | ok rest2 => exact ih n q it hf hmp rest2 hp
      | error e =>
        rw [hp] at hok
        exact nomatch hok

/-- If the listing of a root has a directory entry named `n` while the
accumulator holds a file item (no `_mergePaths`) of that name, the scan
throws: it cannot return `ok`. -/
theorem scanEntries_ok_of_none (p : Path) :
    ∀ (es : List Entry) (acc acc2 : List PreItem) (n : String) (it : PreItem) (e : Entry),
      scanEntries p es acc = .ok acc2 →
      acc.find? (fun x => x.name == n) = some it → it.mergePaths = none →
      findE es n = some e → e.isDir = true → False := by
  intro es
  induction es with
  | nil =>
    intro acc acc2 n it e _ _ _ hfe
    rw [findE, List.find?_nil] at hfe
    exact nomatch hfe
  | cons e0 es ih =>
    intro acc acc2 n it e h hf hmp hfe hd
    rw [scanEntries] at h
    rw [findE, List.find?_cons] at hfe
    by_cases hn : e0.name = n
    · have hb : (e0.name == n) = true := by simp [hn]
      simp only [hb] at hfe
      have hfe2 : some e0 = some e := hfe
      cases hfe2
      have hc : (acc.map PreItem.name).contains e0.name = true := by
        rw [contains_eq_find?_isSome, hn, hf]
        rfl
      rw [if_pos hc, if_pos hd] at h
      cases hp : pushMergePath acc e0.name (p ++ [e0.name]) with
      | ok accX =>
        have hf' : acc.find? (fun x => x.name == e0.name) = some it := by
          rw [hn]
          exact hf
        exact pushMergePath_not_ok_of_none acc e0.name (p ++ [e0.name]) it hf' hmp accX hp
      | error err =>
        rw [hp] at h
        have hbad : (Except.error err : Except MergeErr (List PreItem)) = Except.ok acc2 := h
        exact nomatch hbad
    · have hb : (e0.name == n) = false := by simp [hn]
      simp only [hb] at hfe
      by_cases hc : ((acc.map PreItem.name).contains e0.name) = true
      · rw [if_pos hc] at h
        by_cases hd0 : e0.isDir = true
        · rw [if_pos hd0] at h
          cases hp : pushMergePath acc e0.name (p ++ [e0.name]) with
          | error err =>
            rw [hp] at h
            have hbad : (Except.error err : Except MergeErr (List PreItem)) = Except.ok acc2 := h
            exact nomatch hbad
          | ok accX =>
            rw [hp] at h
            have h' : scanEntries p es accX = .ok acc2 := h
            have hfX : accX.find? (fun x => x.name == n) = some it :=
              (pushMergePath_find?_ne acc e0.name (p ++ [e0.name]) accX n hp
                (fun hh => hn hh.symm)).trans hf
            exact ih accX acc2 n it e h' hfX hmp hfe hd
        · rw [if_neg hd0] at h
          exact ih acc acc2 n it e h hf hmp hfe hd
      · rw [if_neg hc] at h
        have hfX :
            ((acc ++ [(⟨e0.name, p ++ [e0.name], e0.isDir,
                if e0.isDir then some [p ++ [e0.name]] else none⟩ : PreItem)]).find?
              (fun x => x.name == n)) = some it :=
          (find?_append_single_ne acc e0.name (p ++ [e0.name]) e0.isDir
            (if e0.isDir then some [p ++ [e0.name]] else none) n hn).trans hf
        exact ih _ acc2 n it e h hfX hmp hfe hd

/-- If the merge scan returned a file item for name `n` (no `_mergePaths`),
then no scanned root lists `n` as a directory: a directory occurrence after a
file occurrence throws instead of being dropped. -/
theorem scanRoots_none_no_dir (fs : List Entry) (ws : Path) (ifp : Bool)
    (hwf : wfFS fs = true) :
    ∀ (ns : List (Option Path)) (acc acc' : List PreItem),
      scanRoots fs ws ifp ns acc = .ok acc' →
      ∀ (n : String) (it : PreItem),
        acc'.find? (fun x => x.name == n) = some it → it.mergePaths = none →
        rootsListingDirName fs ws ifp ns n = [] := by
  intro ns
  induction ns with
  | nil =>
    intro acc acc' _ n it _ _
    rfl
  | cons o rest ih =>
    intro acc acc' h n it hfind hmp
    cases o with
    | none =>
      rw [scanRoots] at h
      rw [rootsListingDirName_none_cons]
      exact ih acc acc' h n it hfind hmp
    | some f =>
      rw [scanRoots] at h
      cases hex : existsAt fs (resolveRoot ws ifp f) with
      | false =>
        rw [if_neg (by intro hh; rw [hex] at hh; exact nomatch hh)] at h
        have hchN : (childrenAt fs (resolveRoot ws ifp f)).isSome = false := by
          cases hcc : (childrenAt fs (resolveRoot ws ifp f)).isSome with
          | false => rfl
          | true =>
            have := existsAt_of_childrenAt_isSome (resolveRoot ws ifp f) fs hcc
            rw [this] at hex
            exact nomatch hex
        rw [rootsListingDirName_cons_skip rest n hchN]
        exact ih acc acc' h n it hfind hmp
      | true =>
        rw [if_pos hex] at h
        cases hch : childrenAt fs (resolveRoot ws ifp f) with
        | none =>
          rw [hch] at h
          have hbad : (Except.error MergeErr.fsError : Except MergeErr (List PreItem)) =
              Except.ok acc' := h
          exact nomatch hbad
        | some es =>
          rw [hch] at h
          have h2 : (match scanEntries (resolveRoot ws ifp f) es acc with
              | Except.ok acc2 => scanRoots fs ws ifp rest acc2
              | Except.error e => Except.error e) = Except.ok acc' := h
          cases hse : scanEntries (resolveRoot ws ifp f) es acc with
          | error err => rw [hse] at h2; exact nomatch h2
          | ok acc2 =>
            rw [hse] at h2
            have h3 : scanRoots fs ws ifp rest acc2 = Except.ok acc' := h2
            have hchS : (childrenAt fs (resolveRoot ws ifp f)).isSome = true := by
              rw [hch]; rfl
            have hnodupes : (es.map Entry.name).Nodup :=
              namesNodup_of_wfFS (wfFS_childrenAt (resolveRoot ws ifp f) fs es hwf hch)
            have hrest : rootsListingDirName fs ws ifp rest n = [] :=
              ih acc2 acc' h3 n it hfind hmp
            have hdirFalse : (match findE es n with
                | some e => e.isDir
                | none => false) = false := by
              cases hfe : findE es n with
              | none => rfl
              | some e =>
                cases e with
                | file f0 => rfl
                | dir d0 cs0 =>
                  exfalso
                  have inner := scanEntries_find? (resolveRoot ws ifp f) es acc acc2 hnodupes
                    hse n
                  rw [hfe] at inner
                  cases hacc : acc.find? (fun x => x.name == n) with
                  | some it0 =>
                    rw [hacc] at inner
                    have hacc2X : acc2.find? (fun x => x.name == n) =
                        some { it0 with mergePaths :=
                          it0.mergePaths.map (· ++ [resolveRoot ws ifp f ++ [n]]) } := by
                      rw [inner]
                      rfl
                    have keyX := scanRoots_find? fs ws ifp hwf rest acc2 acc' h3 n
                    rw [hacc2X] at keyX
                    have keyX2 : acc'.find? (fun x => x.name == n) =
                        some (⟨it0.name, it0.resourceUri, it0.isDir,
                          (it0.mergePaths.map (· ++ [resolveRoot ws ifp f ++ [n]])).map
                            (· ++ (rootsListingDirName fs ws ifp rest n).map (· ++ [n]))⟩ :
                          PreItem) := by
                      rw [keyX]
                    rw [keyX2] at hfind
                    have hit := Option.some.inj hfind
                    rw [← hit] at hmp
                    cases hmp0 : it0.mergePaths with
                    | none =>
                      exact scanEntries_ok_of_none (resolveRoot ws ifp f) es acc acc2 n it0
                        (Entry.dir d0 cs0) hse hacc hmp0 hfe rfl
                    | some ps0 =>
                      rw [hmp0] at hmp
                      simp at hmp
                  | none =>
                    rw [hacc] at inner
                    have hacc2X : acc2.find? (fun x => x.name == n) =
                        some (⟨n, resolveRoot ws ifp f ++ [n], true,
                          some [resolveRoot ws ifp f ++ [n]]⟩ : PreItem) := by
                      rw [inner]
                      rfl
                    have keyX := scanRoots_find? fs ws ifp hwf rest acc2 acc' h3 n
                    rw [hacc2X] at keyX
                    have keyX2 : acc'.find? (fun x => x.name == n) =
                        some (⟨n, resolveRoot ws ifp f ++ [n], true,
                          some ((resolveRoot ws ifp f ++ [n]) ::
                            (rootsListingDirName fs ws ifp rest n).map (· ++ [n]))⟩ :
                          PreItem) := by
                      rw [keyX]
                      rfl
                    rw [keyX2] at hfind
                    have hit := Option.some.inj hfind
                    rw [← hit] at hmp
                    simp at hmp
            have hld : listsDirName fs (resolveRoot ws ifp f) n = false := by
              rw [listsDirName_eq_firstEntryIsDir hch hnodupes, firstEntryIsDir, hch]
              show (match findE es n with
                | some e => e.isDir
                | none => false) = false
              exact hdirFalse
            rw [rootsListingDirName_cons_false rest hchS hld]
            exact hrest

/-- The whole root scan keeps item names pairwise distinct. -/
theorem scanRoots_nodup (fs : List Entry) (ws : Path) (ifp : Bool) (hwf : wfFS fs = true) :
    ∀ (ns : List (Option Path)) (acc acc' : List PreItem),
      (acc.map PreItem.name).Nodup →
      scanRoots fs ws ifp ns acc = .ok acc' → (acc'.map PreItem.name).Nodup := by
  intro ns
  induction ns with
  | nil =>
    intro acc acc' hacc h
    rw [scanRoots] at h
    cases h
    exact hacc
  | cons o rest ih =>
    intro acc acc' hacc h
    cases o with
    | none =>
      rw [scanRoots] at h
      exact ih acc acc' hacc h
    | some f =>
      rw [scanRoots] at h
      cases hex : existsAt fs (resolveRoot ws ifp f) with
      | false =>
        rw [if_neg (by intro hh; rw [hex] at hh; exact nomatch hh)] at h
        exact ih acc acc' hacc h
      | true =>
        rw [if_pos hex] at h
        cases hch : childrenAt fs (resolveRoot ws ifp f) with
        | none =>
          rw [hch] at h
          have hbad : (Except.error MergeErr.fsError : Except MergeErr (List PreItem)) =
              Except.ok acc' := h
          exact nomatch hbad
        | some es =>
          rw [hch] at h
          have h2 : (match scanEntries (resolveRoot ws ifp f) es acc with
              | Except.ok acc2 => scanRoots fs ws ifp rest acc2
              | Except.error e => Except.error e) = Except.ok acc' := h
          cases hse : scanEntries (resolveRoot ws ifp f) es acc with
          | error err => rw [hse] at h2; exact nomatch h2
          | ok acc2 =>
            rw [hse] at h2
            have hnodupes : (es.map Entry.name).Nodup :=
              namesNodup_of_wfFS (wfFS_childrenAt (resolveRoot ws ifp f) fs es hwf hch)
            exact ih acc2 acc'
              (scanEntries_nodup (resolveRoot ws ifp f) es acc acc2 hnodupes hacc hse) h2

/-- Characterization of the loop body on a directory item. -/
theorem buildNode_ok_some (rec : List (Option Path) → Bool → Except MergeErr (List Node))
    (it : PreItem) (ps : List Path) (hmp : it.mergePaths = some ps) :
    ∀ (nd : Node), buildNode rec it = .ok nd →
      ∃ cs, rec (ps.map some) true = .ok cs ∧ nd = Node.dir it.name it.resourceUri cs := by
  intro nd h
  rw [buildNode, hmp] at h
  have h2 : (match rec (ps.map some) true with
      | Except.ok cs => (Except.ok (Node.dir it.name it.resourceUri cs) : Except MergeErr Node)
      | Except.error e => Except.error e) = Except.ok nd := h
  cases hr : rec (ps.map some) true with
  | error e => rw [hr] at h2; exact nomatch h2
  | ok cs =>
    rw [hr] at h2
    have h3 : Except.ok (Node.dir it.name it.resourceUri cs) = Except.ok nd := h2
    cases h3
    exact ⟨cs, rfl, rfl⟩

/-- Characterization of the loop body on a file item. -/
theorem buildNode_ok_none (rec : List (Option Path) → Bool → Except MergeErr (List Node))
    (it : PreItem) (hmp : it.mergePaths = none) :
    ∀ (nd : Node), buildNode rec it = .ok nd → nd = Node.file it.name it.resourceUri := by
  intro nd h
  rw [buildNode, hmp] at h
  have h2 : Except.ok (Node.file it.name it.resourceUri) = Except.ok nd := h
  cases h2
  rfl

/-- The loop body keeps the label and the canonical path. -/
theorem buildNode_name_uri (rec : List (Option Path) → Bool → Except MergeErr (List Node))
    (it : PreItem) (nd : Node) (h : buildNode rec it = .ok nd) :
    nd.name = it.name ∧ nd.resourceUri = it.resourceUri := by
  cases hmp : it.mergePaths with
  | some ps =>
    obtain ⟨cs, _, rfl⟩ := buildNode_ok_some rec it ps hmp nd h
    exact ⟨rfl, rfl⟩
  | none =>
    rw [buildNode_ok_none rec it hmp nd h]
    exact ⟨rfl, rfl⟩

/-- The second merge pass keeps labels, in order. -/
theorem buildNodesWith_map_name (rec : List (Option Path) → Bool → Except MergeErr (List Node)) :
    ∀ (items : List PreItem) (ns : List Node),
      buildNodesWith rec items = .ok ns → ns.map Node.name = items.map PreItem.name := by
  intro items
  induction items with
  | nil =>
    intro ns h
    rw [buildNodesWith] at h
    cases h
    rfl
  | cons it its ih =>
    intro ns h
    rw [buildNodesWith] at h
    cases hhd : buildNode rec it with
    | error e => rw [hhd] at h; exact nomatch h
    | ok nd =>
      rw [hhd] at h
      cases hbn : buildNodesWith rec its with
      | error e => rw [hbn] at h; exact nomatch h
      | ok nds =>
        rw [hbn] at h
        have h2 : Except.ok (nd :: nds) = Except.ok ns := h
        cases h2
        rw [List.map_cons, List.map_cons, ih nds hbn, (buildNode_name_uri rec it nd hhd).1]

/-- Every returned node comes from an item with the same label and
`resourceUri`. -/
theorem buildNodesWith_mem (rec : List (Option Path) → Bool → Except MergeErr (List Node)) :
    ∀ (items : List PreItem) (ns : List Node),
      buildNodesWith rec items = .ok ns →
      ∀ nd ∈ ns, ∃ it, it ∈ items ∧ nd.name = it.name ∧ nd.resourceUri = it.resourceUri := by
  intro items
  induction items with
  | nil =>
    intro ns h nd hnd
    rw [buildNodesWith] at h
    cases h
    exact absurd hnd (List.not_mem_nil nd)
  | cons it its ih =>
    intro ns h nd hnd
    rw [buildNodesWith] at h
    cases hhd : buildNode rec it with
    | error e => rw [hhd] at h; exact nomatch h
    | ok nd0 =>
      rw [hhd] at h
      cases hbn : buildNodesWith rec its with
      | error e => rw [hbn] at h; exact nomatch h
      | ok nds =>
        rw [hbn] at h
        have h2 : Except.ok (nd0 :: nds) = Except.ok ns := h
        cases h2
        rcases List.mem_cons.mp hnd with rfl | hnd2
        · exact ⟨it, List.mem_cons_self it its, (buildNode_name_uri rec it nd hhd).1,
            (buildNode_name_uri rec it nd hhd).2⟩
        · obtain ⟨it2, hm, he1, he2⟩ := ih nds hbn nd hnd2
          exact ⟨it2, List.mem_cons_of_mem it hm, he1, he2⟩

/-- Filtering an unlisted label finds nothing. -/
theorem filter_name_eq_nil (N : String) :
    ∀ (ns : List Node), N ∉ ns.map Node.name → ns.filter (fun nd => nd.name == N) = [] := by
  intro ns
  induction ns with
  | nil => intro _; rfl
  | cons nd nds ih =>
    intro hnm
    rw [List.map_cons] at hnm
    have h1 : nd.name ≠ N := fun he => hnm (by rw [he]; exact List.mem_cons_self _ _)
    have hb : (nd.name == N) = false := by simp [h1]
    rw [List.filter_cons]
    simp only [hb, Bool.false_eq_true, if_false]
    exact ih fun hm => hnm (List.mem_cons_of_mem _ hm)

/-- If the merged map holds exactly one directory item named `N`, the result
of the second pass holds exactly one node named `N`: a directory node with
that item's `resourceUri`, whose children are the recursive merge of its
`_mergePaths`. -/
theorem buildNodesWith_filter (rec : List (Option Path) → Bool → Except MergeErr (List Node)) :
    ∀ (items : List PreItem) (ns : List Node) (N : String) (it : PreItem) (ps : List Path),
      buildNodesWith rec items = .ok ns → (items.map PreItem.name).Nodup →
      items.find? (fun x => x.name == N) = some it → it.mergePaths = some ps →
      ∃ cs, rec (ps.map some) true = .ok cs ∧
        ns.filter (fun nd => nd.name == N) = [Node.dir it.name it.resourceUri cs] := by
  intro items
  induction items with
  | nil =>
    intro ns N it ps _ _ hf
    rw [List.find?_nil] at hf
    exact nomatch hf
  | cons it0 its ih =>
    intro ns N it ps h hnd hf hmp
    rw [buildNodesWith] at h
    rw [List.find?_cons] at hf
    rw [List.map_cons] at hnd
    cases hhd : buildNode rec it0 with
    | error e => rw [hhd] at h; exact nomatch h
    | ok nd0 =>
      rw [hhd] at h
      cases hbn : buildNodesWith rec its with
      | error e => rw [hbn] at h; exact nomatch h
      | ok nds =>
        rw [hbn] at h
        have h2 : Except.ok (nd0 :: nds) = Except.ok ns := h
        cases h2
        by_cases hn : it0.name = N
        · have hb : (it0.name == N) = true := by simp [hn]
          simp only [hb] at hf
          have hf2 : some it0 = some it := hf
          cases hf2
          obtain ⟨cs, hr, rfl⟩ := buildNode_ok_some rec it0 ps hmp nd0 hhd
          refine ⟨cs, hr, ?_⟩
          rw [List.filter_cons]
          have hb2 : ((Node.dir it0.name it0.resourceUri cs).name == N) = true := by
            simp [Node.name, hn]
          simp only [hb2, if_true]
          have hnil : nds.filter (fun nd => nd.name == N) = [] := by
            apply filter_name_eq_nil
            rw [buildNodesWith_map_name rec its nds hbn, ← hn]
            exact (List.nodup_cons.mp hnd).1
          rw [hnil]
        · have hb : (it0.name == N) = false := by simp [hn]
          simp only [hb] at hf
          obtain ⟨cs, hrec, hfil⟩ := ih nds N it ps hbn (List.nodup_cons.mp hnd).2 hf hmp
          refine ⟨cs, hrec, ?_⟩
          rw [List.filter_cons]
          have hb2 : (nd0.name == N) = false := by
            rw [(buildNode_name_uri rec it0 nd0 hhd).1]
            exact hb
          simp only [hb2, Bool.false_eq_true, if_false]
          exact hfil

/-- Listing a name as a directory implies listing it. -/
theorem listsName_of_listsDirName {fs : List Entry} {p : Path} {n : String}
    (h : listsDirName fs p n = true) : listsName fs p n = true := by
  rw [listsDirName] at h
  rw [listsName]
  cases hch : childrenAt fs p with
  | none => rw [hch] at h; exact nomatch h
  | some cs =>
    rw [hch] at h
    have h2 : (cs.any fun e => (e.name == n) && e.isDir) = true := h
    obtain ⟨e, hm, hpe⟩ := List.any_eq_true.mp h2
    exact List.any_eq_true.mpr ⟨e, hm, (Bool.and_eq_true_iff.mp hpe).1⟩

/-- The root scan ignores skipped roots: scanning the kept roots gives the
same outcome. -/
theorem scanRoots_keptRoots (fs : List Entry) (ws : Path) (ifp : Bool) :
    ∀ (ns : List (Option Path)) (acc : List PreItem),
      scanRoots fs ws ifp ns acc = scanRoots fs ws ifp (keptRoots fs ws ifp ns) acc := by
  intro ns
  induction ns with
  | nil => intro acc; rfl
  | cons o rest ih =>
    intro acc
    cases o with
    | none =>
      rw [scanRoots, keptRoots]
      exact ih acc
    | some f =>
      cases hex : existsAt fs (resolveRoot ws ifp f) with
      | false =>
        rw [scanRoots, keptRoots, if_neg (by intro hh; rw [hex] at hh; exact nomatch hh),
          if_neg (by intro hh; rw [hex] at hh; exact nomatch hh)]
        exact ih acc
      | true =>
        rw [keptRoots, if_pos hex, scanRoots, scanRoots, if_pos hex, if_pos hex]
        cases hch : childrenAt fs (resolveRoot ws ifp f) with
        | none => rfl
        | some es =>
          show (match scanEntries (resolveRoot ws ifp f) es acc with
              | Except.ok acc2 => scanRoots fs ws ifp rest acc2
              | Except.error e => Except.error e) =
            (match scanEntries (resolveRoot ws ifp f) es acc with
              | Except.ok acc2 => scanRoots fs ws ifp (keptRoots fs ws ifp rest) acc2
              | Except.error e => Except.error e)
          cases hse : scanEntries (resolveRoot ws ifp f) es acc with
          | error e => rfl
          | ok acc2 =>
            show scanRoots fs ws ifp rest acc2 =
              scanRoots fs ws ifp (keptRoots fs ws ifp rest) acc2
            exact ih acc2

/-- C9: roots that do not exist on disk (and falsy folder names) are skipped
silently: `_getFilesFromFolders` returns exactly what it returns on the
existing roots alone, in their original order, and a missing root never
raises an error. -/
theorem c9_missing_roots_skipped (fs : List Entry) (ws : Path) (fuel : Nat)
    (folderNames : List (Option Path)) (ifp : Bool) :
    getFilesFromFolders fs ws fuel folderNames ifp =
      getFilesFromFolders fs ws fuel (keptRoots fs ws ifp folderNames) ifp := by
  cases fuel with
  | zero => rfl
  | succ n =>
    show (match scanRoots fs ws ifp folderNames [] with
        | Except.ok items => buildNodesWith (getFilesFromFolders fs ws n) items
        | Except.error e => Except.error e) =
      (match scanRoots fs ws ifp (keptRoots fs ws ifp folderNames) [] with
        | Except.ok items => buildNodesWith (getFilesFromFolders fs ws n) items
        | Except.error e => Except.error e)
    rw [scanRoots_keptRoots fs ws ifp folderNames []]

/-- C2: when a name is first seen as a file and a later root lists it as a
directory, the merge does not discard the directory silently: it throws the
`TypeError` of `undefined.push`, here on roots `r1` (file `n`) and `r2`
(directory `n`). -/
theorem c2_dir_after_file_typeError :
    getFilesFromFolders
      [Entry.dir "r1" [Entry.file "n"], Entry.dir "r2" [Entry.dir "n" []]] [] 2
      [some ["r1"], some ["r2"]] false = .error .typeError := rfl

/-- C5: every node `_getFilesFromFolders` returns carries as `resourceUri`
the path of its name inside the first supplied root that lists that name,
even when later roots contribute to it. -/
theorem c5_resourceUri_first_root (fs : List Entry) (ws : Path) (ifp : Bool) (fuel : Nat)
    (folderNames : List (Option Path)) (ns : List Node) (nd : Node)
    (hwf : wfFS fs = true)
    (h : getFilesFromFolders fs ws fuel folderNames ifp = .ok ns)
    (hmem : nd ∈ ns) :
    ∃ r, firstRootContaining fs ws ifp folderNames nd.name = some r ∧
      nd.resourceUri = r ++ [nd.name] := by
  cases fuel with
  | zero => exact nomatch h
  | succ n =>
    have h' : (match scanRoots fs ws ifp folderNames [] with
        | Except.ok items => buildNodesWith (getFilesFromFolders fs ws n) items
        | Except.error e => Except.error e) = Except.ok ns := h
    cases hsc : scanRoots fs ws ifp folderNames [] with
    | error e => rw [hsc] at h'; exact nomatch h'
    | ok items =>
      rw [hsc] at h'
      have hb : buildNodesWith (getFilesFromFolders fs ws n) items = .ok ns := h'
      obtain ⟨it, hitmem, hname, huri⟩ := buildNodesWith_mem _ items ns hb nd hmem
      have hnodup : (items.map PreItem.name).Nodup :=
        scanRoots_nodup fs ws ifp hwf folderNames [] items List.nodup_nil hsc
      have hfind : items.find? (fun x => x.name == it.name) = some it :=
        find?_eq_self_of_mem_nodup hnodup hitmem
      have key := scanRoots_find? fs ws ifp hwf folderNames [] items hsc it.name
      rw [hfind] at key
      cases hfr : firstRootContaining fs ws ifp folderNames it.name with
      | none =>
        rw [hfr] at key
        have key2 : some it = (none : Option PreItem) := key
        exact nomatch key2
      | some r =>
        rw [hfr] at key
        have key2 : some it = some (⟨it.name, r ++ [it.name], firstEntryIsDir fs r it.name,
            if firstEntryIsDir fs r it.name then
              some ((rootsListingDirName fs ws ifp folderNames it.name).map (· ++ [it.name]))
            else none⟩ : PreItem) := key
        have hiteq := Option.some.inj key2
        refine ⟨r, ?_, ?_⟩
        · rw [hname]
          exact hfr
        · rw [huri, hname]
          exact congrArg PreItem.resourceUri hiteq

/-- C1 (amended): whenever the merge completes successfully on a
well-formed filesystem and a name `N` is listed as a directory by at least
two of the supplied roots, the result holds exactly one node named `N`, a
directory node whose children are exactly the recursive merge of the full
accumulated list of contributing directory paths, in the order the roots
were supplied. -/
theorem c1_unique_merged_dir (fs : List Entry) (ws : Path) (ifp : Bool) (fuel : Nat)
    (folderNames : List (Option Path)) (ns : List Node) (N : String)
    (hwf : wfFS fs = true)
    (h : getFilesFromFolders fs ws (fuel + 1) folderNames ifp = .ok ns)
    (hk : 2 ≤ (rootsListingDirName fs ws ifp folderNames N).length) :
    ∃ uri cs,
      ns.filter (fun nd => nd.name == N) = [Node.dir N uri cs] ∧
      getFilesFromFolders fs ws fuel
        ((rootsListingDirName fs ws ifp folderNames N).map fun r => some (r ++ [N])) true =
        .ok cs := by
  have h' : (match scanRoots fs ws ifp folderNames [] with
      | Except.ok items => buildNodesWith (getFilesFromFolders fs ws fuel) items
      | Except.error e => Except.error e) = Except.ok ns := h
  cases hsc : scanRoots fs ws ifp folderNames [] with
  | error e => rw [hsc] at h'; exact nomatch h'
  | ok items =>
    rw [hsc] at h'
    have hb : buildNodesWith (getFilesFromFolders fs ws fuel) items = .ok ns := h'
    have hnodup : (items.map PreItem.name).Nodup :=
      scanRoots_nodup fs ws ifp hwf folderNames [] items List.nodup_nil hsc
    have key := scanRoots_find? fs ws ifp hwf folderNames [] items hsc N
    have hne : rootsListingDirName fs ws ifp folderNames N ≠ [] := by
      intro hnil
      rw [hnil] at hk
      exact absurd hk (by decide)
    have hfrex : ∃ r, firstRootContaining fs ws ifp folderNames N = some r := by
      cases hfr0 : firstRootContaining fs ws ifp folderNames N with
      | some r => exact ⟨r, rfl⟩
      | none =>
        exfalso
        rw [firstRootContaining, List.find?_eq_none] at hfr0
        apply hne
        rw [rootsListingDirName]
        rw [List.filter_eq_nil_iff]
        intro p hp hld
        exact hfr0 p hp (listsName_of_listsDirName hld)
    obtain ⟨r, hfr⟩ := hfrex
    rw [hfr] at key
    have key2 : items.find? (fun x => x.name == N) =
        some (⟨N, r ++ [N], firstEntryIsDir fs r N,
          if firstEntryIsDir fs r N then
            some ((rootsListingDirName fs ws ifp folderNames N).map (· ++ [N]))
          else none⟩ : PreItem) := key
    cases hFE : firstEntryIsDir fs r N with
    | false =>
      exfalso
      rw [hFE] at key2
      have hmpnone : ((⟨N, r ++ [N], false,
          if false = true then
            some ((rootsListingDirName fs ws ifp folderNames N).map (· ++ [N]))
          else none⟩ : PreItem)).mergePaths = none := rfl
      exact hne (scanRoots_none_no_dir fs ws ifp hwf folderNames [] items hsc N _ key2 hmpnone)
    | true =>
      rw [hFE] at key2
      have key3 : items.find? (fun x => x.name == N) =
          some (⟨N, r ++ [N], true,
            some ((rootsListingDirName fs ws ifp folderNames N).map (· ++ [N]))⟩ : PreItem) :=
        key2
      obtain ⟨cs, hrec, hfil⟩ := buildNodesWith_filter (getFilesFromFolders fs ws fuel)
        items ns N _ _ hb hnodup key3 rfl
      refine ⟨r ++ [N], cs, hfil, ?_⟩
      rw [List.map_map] at hrec
      exact hrec

/-- The labels of the "Combined source" part, by presence of its roots. -/
theorem combinedSection_label (fs : List Entry) (ws : Path) (fuel : Nat) (json : Config)
    (s1 : List SectionNode) (h : combinedSection fs ws fuel json = .ok s1) :
    s1.map SectionNode.label =
      (if json.sourceDirectory.isSome || json.resourcesDirectory.isSome then
        ["Combined source"] else []) := by
  rw [combinedSection] at h
  by_cases hc : (json.sourceDirectory.isSome || json.resourcesDirectory.isSome) = true
  · rw [if_pos hc] at h
    rw [if_pos hc]
    cases hm : getFilesFromFolders fs ws fuel
        [json.sourceDirectory, json.resourcesDirectory] false with
    | error e => rw [hm] at h; exact nomatch h
    | ok cs =>
      rw [hm] at h
      have h2 : Except.ok [({ label := "Combined source", children := cs } : SectionNode)] =
          Except.ok s1 := h
      cases h2
      rfl
  · rw [if_neg hc] at h
    rw [if_neg hc]
    have h2 : Except.ok ([] : List SectionNode) = Except.ok s1 := h
    cases h2
    rfl

/-- The labels of the "Includes" part, by presence of its root. -/
theorem includesSection_label (fs : List Entry) (ws : Path) (fuel : Nat) (json : Config)
    (s2 : List SectionNode) (h : includesSection fs ws fuel json = .ok s2) :
    s2.map SectionNode.label =
      (if json.includeDirectory.isSome then ["Includes"] else []) := by
  rw [includesSection] at h
  by_cases hc : json.includeDirectory.isSome = true
  · rw [if_pos hc] at h
    rw [if_pos hc]
    cases hm : getFilesFromFolders fs ws fuel [json.includeDirectory] false with
    | error e => rw [hm] at h; exact nomatch h
    | ok cs =>
      rw [hm] at h
      have h2 : Except.ok [({ label := "Includes", children := cs } : SectionNode)] =
          Except.ok s2 := h
      cases h2
      rfl
  · rw [if_neg hc] at h
    rw [if_neg hc]
    have h2 : Except.ok ([] : List SectionNode) = Except.ok s2 := h
    cases h2
    rfl

/-- C7: the sections built from a parsed configuration contain "Combined
source" exactly when `sourceDirectory` or `resourcesDirectory` is present,
contain "Includes" exactly when `includeDirectory` is present, and contain
nothing else. -/
theorem c7_sections_iff (fs : List Entry) (ws : Path) (fuel : Nat) (json : Config)
    (secs : List SectionNode)
    (h : getFoldersFromConfig fs ws fuel json = .ok secs) :
    (("Combined source" ∈ secs.map SectionNode.label) ↔
      (json.sourceDirectory.isSome = true ∨ json.resourcesDirectory.isSome = true)) ∧
    (("Includes" ∈ secs.map SectionNode.label) ↔ json.includeDirectory.isSome = true) ∧
    (∀ s ∈ secs, s.label = "Combined source" ∨ s.label = "Includes") := by
  rw [getFoldersFromConfig] at h
  cases h1 : combinedSection fs ws fuel json with
  | error e => rw [h1] at h; exact nomatch h
  | ok s1 =>
    rw [h1] at h
    have h' : (match includesSection fs ws fuel json with
        | Except.ok s2 => Except.ok (s1 ++ s2)
        | Except.error e => (Except.error e : Except MergeErr (List SectionNode))) =
        Except.ok secs := h
    cases h2 : includesSection fs ws fuel json with
    | error e => rw [h2] at h'; exact nomatch h'
    | ok s2 =>
      rw [h2] at h'
      have h3 : Except.ok (s1 ++ s2) = Except.ok secs := h'
      cases h3
      have l1 := combinedSection_label fs ws fuel json s1 h1
      have l2 := includesSection_label fs ws fuel json s2 h2
      refine ⟨?_, ?_, ?_⟩
      · rw [List.map_append, l1, l2]
        by_cases hc : (json.sourceDirectory.isSome || json.resourcesDirectory.isSome) = true
        · rw [if_pos hc]
          have hor := Bool.or_eq_true_iff.mp hc
          constructor
          · intro _; exact hor
          · intro _
            by_cases hi : json.includeDirectory.isSome = true
            · rw [if_pos hi]; exact List.mem_cons_self _ _
            · rw [if_neg hi]; exact List.mem_cons_self _ _
        · rw [if_neg hc]
          constructor
          · intro hmem
            exfalso
            by_cases hi : json.includeDirectory.isSome = true
            · rw [if_pos hi] at hmem
              simp at hmem
            · rw [if_neg hi] at hmem
              simp at hmem
          · intro hor
            exfalso
            apply hc
            rw [Bool.or_eq_true_iff]
            exact hor
      · rw [List.map_append, l1, l2]
        by_cases hi : json.includeDirectory.isSome = true
        · rw [if_pos hi]
          constructor
          · intro _; exact hi
          · intro _
            by_cases hc : (json.sourceDirectory.isSome || json.resourcesDirectory.isSome) = true
            · rw [if_pos hc]; simp
            · rw [if_neg hc]; simp
        · rw [if_neg hi]
          constructor
          · intro hmem
            exfalso
            by_cases hc : (json.sourceDirectory.isSome || json.resourcesDirectory.isSome) = true
            · rw [if_pos hc] at hmem
              simp at hmem
            · rw [if_neg hc] at hmem
              simp at hmem
          · intro hh; exact absurd hh hi
      · intro s hs
        rcases List.mem_append.mp hs with hs1 | hs2
        · left
          have hml : s.label ∈ s1.map SectionNode.label := List.mem_map_of_mem _ hs1
          rw [l1] at hml
          by_cases hc : (json.sourceDirectory.isSome || json.resourcesDirectory.isSome) = true
          · rw [if_pos hc] at hml
            simpa using hml
          · rw [if_neg hc] at hml
            simp at hml
        · right
          have hml : s.label ∈ s2.map SectionNode.label := List.mem_map_of_mem _ hs2
          rw [l2] at hml
          by_cases hi : json.includeDirectory.isSome = true
          · rw [if_pos hi] at hml
            simpa using hml
          · rw [if_neg hi] at hml
            simp at hml

/-- C7 witness: a configuration with a source directory and an include
directory (on an empty filesystem) yields exactly the two sections. -/
theorem c7_witness :
    (("Combined source" ∈
        ([⟨"Combined source", []⟩, ⟨"Includes", []⟩] : List SectionNode).map
          SectionNode.label) ↔
      ((some ["web-src"] : Option Path).isSome = true ∨
        (none : Option Path).isSome = true)) ∧
    (("Includes" ∈
        ([⟨"Combined source", []⟩, ⟨"Includes", []⟩] : List SectionNode).map
          SectionNode.label) ↔ (some ["include"] : Option Path).isSome = true) ∧
    (∀ s ∈ ([⟨"Combined source", []⟩, ⟨"Includes", []⟩] : List SectionNode),
      s.label = "Combined source" ∨ s.label = "Includes") :=
  c7_sections_iff [] [] 1 ⟨some ["web-src"], none, some ["include"]⟩
    [⟨"Combined source", []⟩, ⟨"Includes", []⟩] rfl

/-- C6: at the root, zero configuration files yield the single informational
leaf; exactly one yields that configuration's sections directly; several
yield one collapsible item per file labeled by its basename, each expanding
(via `getChildren` on its `_fccwPath`) into its own sections. -/
theorem c6_root_dispatch (fs : List Entry) (ws : Path) (fuel : Nat)
    (configAt : Path → Config) :
    (findFCCWList ws fs = [] →
      getChildrenRoot fs ws fuel configAt = .ok [RootItem.info "No .fccw workspace found"]) ∧
    (∀ p secs, findFCCWList ws fs = [p] →
      getFoldersFromConfig fs ws fuel (configAt p) = .ok secs →
      getChildrenRoot fs ws fuel configAt =
        .ok (secs.map fun s => RootItem.sec s.label s.children)) ∧
    (2 ≤ (findFCCWList ws fs).length →
      getChildrenRoot fs ws fuel configAt =
        .ok ((findFCCWList ws fs).map fun file => RootItem.config (basename file) file)) ∧
    (∀ p secs, getFoldersFromConfig fs ws fuel (configAt p) = .ok secs →
      getChildrenConfig fs ws fuel configAt p =
        .ok (secs.map fun s => RootItem.sec s.label s.children)) := by
  refine ⟨?_, ?_, ?_, ?_⟩
  · intro hnil
    rw [getChildrenRoot, hnil]
    rfl
  · intro p secs hone hsecs
    rw [getChildrenRoot, hone]
    have hlen1 : ¬(([p] : List Path).length = 0) := by simp
    rw [if_neg hlen1, if_pos (show ([p] : List Path).length = 1 from rfl)]
    have hhead : ([p] : List Path).headD [] = p := rfl
    rw [hhead, hsecs]
  · intro h2
    rw [getChildrenRoot]
    have hlen0 : ¬((findFCCWList ws fs).length = 0) := by
      intro hh
      rw [hh] at h2
      exact absurd h2 (by decide)
    have hlen1 : ¬((findFCCWList ws fs).length = 1) := by
      intro hh
      rw [hh] at h2
      exact absurd h2 (by decide)
    rw [if_neg hlen0, if_neg hlen1]
  · intro p secs hsecs
    rw [getChildrenConfig, hsecs]

/-- C6 witness: two configuration files at different depths yield the two
collapsible per-file items, labeled by their basenames. -/
theorem c6_witness :
    getChildrenRoot [Entry.file "a.fccw", Entry.dir "d" [Entry.file "b.fccw"]] [] 1
        (fun _ => ⟨none, none, none⟩) =
      .ok [RootItem.config "a.fccw" ["a.fccw"], RootItem.config "b.fccw" ["d", "b.fccw"]] := by
  have h := (c6_root_dispatch [Entry.file "a.fccw", Entry.dir "d" [Entry.file "b.fccw"]] [] 1
    (fun _ => ⟨none, none, none⟩)).2.2.1 (by decide)
  exact h

/-- A concrete two-root filesystem: `web-src/a/x.txt` and `res/a/y.txt`. -/
def fsA : List Entry :=
  [Entry.dir "web-src" [Entry.dir "a" [Entry.file "x.txt"]],
   Entry.dir "res" [Entry.dir "a" [Entry.file "y.txt"]]]

/-- The two roots of `fsA`, as supplied to the merge. -/
def rootsA : List (Option Path) := [some ["web-src"], some ["res"]]

/-- The merged node of `fsA`: one directory `a` with both files. -/
def ndA : Node :=
  Node.dir "a" ["web-src", "a"]
    [Node.file "x.txt" ["web-src", "a", "x.txt"], Node.file "y.txt" ["res", "a", "y.txt"]]

/-- The merge result on `fsA`. -/
def nsA : List Node := [ndA]

/-- C5 witness: on `fsA`, the merged `a` node's `resourceUri` lies in
`web-src`, the first root listing `a`. -/
theorem c5_witness :
    wfFS fsA = true ∧
    getFilesFromFolders fsA [] 3 rootsA false = .ok nsA ∧
    (∃ r, firstRootContaining fsA [] false rootsA ndA.name = some r ∧
      ndA.resourceUri = r ++ [ndA.name]) :=
  ⟨by decide, rfl,
    c5_resourceUri_first_root fsA [] false 3 rootsA nsA ndA (by decide) rfl
      (List.mem_cons_self ndA [])⟩

/-- C1 witness: on `fsA`, both roots list `a` as a directory, and the merge
returns exactly one `a` node whose children are the recursive merge of both
contributing paths. -/
theorem c1_witness :
    wfFS fsA = true ∧
    2 ≤ (rootsListingDirName fsA [] false rootsA "a").length ∧
    (∃ uri cs,
      (nsA.filter fun nd => nd.name == "a") = [Node.dir "a" uri cs] ∧
      getFilesFromFolders fsA [] 2
        ((rootsListingDirName fsA [] false rootsA "a").map fun r => some (r ++ ["a"])) true =
        .ok cs) :=
  ⟨by decide, by decide,
    c1_unique_merged_dir fsA [] false 2 rootsA nsA "a" (by decide) rfl (by decide)⟩

/-! ## Part 2: string paths, the provider constructor and the commands

The create/delete command handlers work on string paths
(`element.resourceUri.fsPath`) with the Node `path` functions and JavaScript
`String.prototype.startsWith`.  The `path` functions are modelled for
normalized POSIX paths: a path is parsed into its components (empty and `"."`
segments dropped), `".."` segments are resolved as Node's normalization does,
and the result is rendered back. -/

/-- Split a character list at every `'/'`. -/
def splitSlash : List Char → List (List Char)
  | [] => [[]]
  | c :: rest =>
    if c = '/' then [] :: splitSlash rest
    else
      match splitSlash rest with
      | seg :: segs => (c :: seg) :: segs
      | [] => [[c]]

/-- The components of a string path: split at `'/'`, dropping empty and `"."`
segments (as Node's normalization does). -/
def comps (s : String) : List String :=
  ((splitSlash s.data).map fun l => String.mk l).filter fun c => !(c == "" || c == ".")

/-- Render components with a leading slash before each: `"/a/b"`, `""` for
`[]`. -/
def renderComps : List String → String
  | [] => ""
  | c :: cs => "/" ++ c ++ renderComps cs

/-- Render an absolute path: `"/"` for no components. -/
def renderAbs (cs : List String) : String :=
  if cs = [] then "/" else renderComps cs

/-- Render a relative path: components joined by `"/"`, `""` for `[]`. -/
def renderRel : List String → String
  | [] => ""
  | [c] => c
  | c :: cs => c ++ "/" ++ renderRel cs

/-- Whether a string path is absolute. -/
def isAbs (s : String) : Bool :=
  s.data.head? == some '/'

/-- Resolve `".."` components of an absolute path against a reversed stack of
components already kept (at the root, `".."` is dropped: `"/.."` is `"/"`). -/
def normAbsGo : List String → List String → List String
  | stack, [] => stack.reverse
  | stack, c :: cs =>
    if c = ".." then normAbsGo stack.tail cs else normAbsGo (c :: stack) cs

/-- Resolve `".."` components of a relative path (leading `".."`s are kept). -/
def normRelGo : List String → List String → List String
  | stack, [] => stack.reverse
  | stack, c :: cs =>
    if c = ".." then
      match stack with
      | [] => normRelGo [".."] cs
      | top :: rest => if top = ".." then normRelGo (".." :: top :: rest) cs else normRelGo rest cs
    else normRelGo (c :: stack) cs

/-- `path.join(a, b)` (POSIX), for normalized inputs: concatenate and
normalize. -/
def pathJoin (a b : String) : String :=
  if isAbs a then renderAbs (normAbsGo [] (comps a ++ comps b))
  else
    let r := renderRel (normRelGo [] (comps a ++ comps b))
    if r = "" then "." else r

/-- Length of the longest common component run of two paths. -/
def commonRunLen : List String → List String → Nat
  | a :: as, b :: bs => if a = b then commonRunLen as bs + 1 else 0
  | _, _ => 0

/-- `path.relative(f, t)` (POSIX), for absolute inputs: drop the common
component run, climb with `".."` for what is left of `f`, then descend into
what is left of `t`. -/
def pathRelative (f t : String) : String :=
  renderRel
    (List.replicate
        ((normAbsGo [] (comps f)).length -
          commonRunLen (normAbsGo [] (comps f)) (normAbsGo [] (comps t))) ".." ++
      (normAbsGo [] (comps t)).drop
        (commonRunLen (normAbsGo [] (comps f)) (normAbsGo [] (comps t))))

/-- `path.dirname(s)` (POSIX), for normalized inputs. -/
def pathDirname (s : String) : String :=
  if isAbs s then renderAbs ((normAbsGo [] (comps s)).dropLast)
  else
    match (comps s).dropLast with
    | [] => "."
    | cs => renderRel cs

/-- JavaScript `s.startsWith(pre)`: raw character-prefix test. -/
def jsStartsWith (s pre : String) : Bool :=
  pre.data.isPrefixOf s.data

/-- The `FFHTMLTreeDataProvider` fields the commands read. -/
structure Provider where
  workspaceRoot : String
  sourceDirectory : String
  includeDirectory : String
  resourcesDirectory : String
deriving Repr, DecidableEq

/-- The `FFHTMLTreeDataProvider` constructor: the three category roots are
set to the defaults `web-src`, `include`, `res` joined onto the workspace
root.  Nothing in the source ever reassigns them. -/
def mkProvider (workspaceRoot : String) : Provider :=
  { workspaceRoot := workspaceRoot
    sourceDirectory := pathJoin workspaceRoot "web-src"
    includeDirectory := pathJoin workspaceRoot "include"
    resourcesDirectory := pathJoin workspaceRoot "res" }

/-- A selected element as the commands see it: its `resourceUri.fsPath` and
the result of `fs.statSync(fsPath).isDirectory()` (the path is assumed to
exist, as it came from the rendered tree). -/
structure Elem where
  fsPath : String
  isDirectory : Bool
deriving Repr, DecidableEq

/-- The `baseDir` chosen from the command `type` string; `none` is the
`undefined` left by an unrecognized type. -/
def baseDirOf (prov : Provider) (type : String) : Option String :=
  if type = "resource" then some prov.resourcesDirectory
  else if type = "source" then some prov.sourceDirectory
  else if type = "include" then some prov.includeDirectory
  else none

/-- The `elementTypeDir` chain of `createFilePrompt`: classify the element's
path by `startsWith` against sourceDirectory, then resourcesDirectory, then
includeDirectory. -/
def elementTypeDir (prov : Provider) (fsPath : String) : Option String :=
  if jsStartsWith fsPath prov.sourceDirectory then some prov.sourceDirectory
  else if jsStartsWith fsPath prov.resourcesDirectory then some prov.resourcesDirectory
  else if jsStartsWith fsPath prov.includeDirectory then some prov.includeDirectory
  else none

/-- The `targetDir` computed by `createFilePrompt`: the category `baseDir`
when no element is selected; for a classified element, the element's relative
position inside its own matched root re-joined onto `baseDir`; otherwise the
element's own directory (itself when a directory, its parent when a file).
`none` stands for the `undefined` `baseDir` of an unrecognized type flowing
into `path.join`. -/
def targetDirOf (prov : Provider) (type : String) (element : Option Elem) : Option String :=
  match element with
  | none => baseDirOf prov type
  | some el =>
    match elementTypeDir prov el.fsPath with
    | some r =>
      (baseDirOf prov type).map fun b =>
        pathJoin b (pathRelative r (if el.isDirectory then el.fsPath else pathDirname el.fsPath))
    | none => some (if el.isDirectory then el.fsPath else pathDirname el.fsPath)

/-- The filesystem state the commands mutate: the string paths of existing
directories and files. -/
structure FSS where
  dirs : List String
  files : List String
deriving Repr, DecidableEq

/-- The chain of ancestors (shortest first) of an absolute directory path. -/
def ancestorPaths (p : String) : List String :=
  (List.range (comps p).length).map fun i => renderAbs ((comps p).take (i + 1))

/-- `fs.mkdirSync(dir, { recursive: true })`. -/
def mkdirRecursive (st : FSS) (dir : String) : FSS :=
  { st with dirs := st.dirs ++ (ancestorPaths dir).filter fun d => !st.dirs.contains d }

/-- `fs.writeFileSync(p, '', 'utf8')` (an empty file appears at `p`). -/
def writeFileSync (st : FSS) (p : String) : FSS :=
  { st with files := if st.files.contains p then st.files else st.files ++ [p] }

/-- `createFilePrompt(element, type)`: `fileName` is what the input box
returned (`none` for a dismissed prompt).  A falsy file name returns at once:
no filesystem change, no refresh.  Otherwise the target directory chain is
created and an empty file written, and `refresh()` fires (the `Bool`).
`Except.error` is the `TypeError` of joining onto an `undefined` `baseDir`. -/
def createFilePrompt (prov : Provider) (element : Option Elem) (type : String)
    (fileName : Option String) (st : FSS) : Except Unit (FSS × Bool) :=
  match fileName with
  | none => .ok (st, false)
  | some fn =>
    if fn = "" then .ok (st, false)
    else
      match targetDirOf prov type element with
      | none => .error ()
      | some targetDir =>
        let targetPath := pathJoin targetDir fn
        .ok (writeFileSync (mkdirRecursive st (pathDirname targetPath)) targetPath, true)

/-- `fs.rmdirSync(p, { recursive: true })`: remove `p` and everything below
it. -/
def removeRecursive (st : FSS) (p : String) : FSS :=
  { dirs := st.dirs.filter fun d => !(d == p || jsStartsWith d (p ++ "/")),
    files := st.files.filter fun f => !(f == p || jsStartsWith f (p ++ "/")) }

/-- `fs.unlinkSync(p)`. -/
def unlink (st : FSS) (p : String) : FSS :=
  { st with files := st.files.filter fun f => !(f == p) }

/-- `deleteFilePrompt(element)`: nothing happens without an element; nothing
happens unless the confirmation dialog returned the `'Delete'` choice;
otherwise the file is unlinked or the directory removed recursively, and
`refresh()` fires (the `Bool`). -/
def deleteFilePrompt (element : Option Elem) (confirm : Option String) (st : FSS) :
    FSS × Bool :=
  match element with
  | none => (st, false)
  | some el =>
    if confirm = some "Delete" then
      if el.isDirectory then (removeRecursive st el.fsPath, true)
      else (unlink st el.fsPath, true)
    else (st, false)

/-! ### Component predicates and path-parsing lemmas -/

/-- A path component that `comps` preserves: nonempty, not `"."`,
slash-free. -/
def compOk (c : String) : Bool :=
  !(c == "" || c == ".") && !(c.data.contains '/')

/-- A clean path component: `compOk` and not `".."` either. -/
def cleanComp (c : String) : Bool :=
  compOk c && !(c == "..")

/-- All components clean. -/
def cleanComps (cs : List String) : Bool :=
  cs.all cleanComp

/-- The map-filter that `comps` applies to the split segments. -/
def compsList (L : List (List Char)) : List String :=
  (L.map fun l => String.mk l).filter fun c => !(c == "" || c == ".")

theorem bool_not_true {b : Bool} (h : (!b) = true) : b = false := by
  cases b with
  | false => rfl
  | true => exact absurd h (by decide)

theorem compOk_no_slash {c : String} (h : compOk c = true) :
    c.data.contains '/' = false := by
  rw [compOk, Bool.and_eq_true] at h
  exact bool_not_true h.2

theorem compOk_keep {c : String} (h : compOk c = true) :
    (!(c == "" || c == ".")) = true := by
  rw [compOk, Bool.and_eq_true] at h
  exact h.1

theorem cleanComp_compOk {c : String} (h : cleanComp c = true) : compOk c = true := by
  rw [cleanComp, Bool.and_eq_true] at h
  exact h.1

theorem cleanComp_beq_dotdot {c : String} (h : cleanComp c = true) :
    (c == "..") = false := by
  rw [cleanComp, Bool.and_eq_true] at h
  exact bool_not_true h.2

theorem all_compOk_of_cleanComps {cs : List String} (h : cleanComps cs = true) :
    cs.all compOk = true := by
  rw [cleanComps, List.all_eq_true] at h
  rw [List.all_eq_true]
  exact fun x hx => cleanComp_compOk (h x hx)

theorem all_ne_dotdot_of_cleanComps {cs : List String} (h : cleanComps cs = true) :
    (cs.all fun c => !(c == "..")) = true := by
  rw [cleanComps, List.all_eq_true] at h
  rw [List.all_eq_true]
  intro x hx
  show (!(x == "..")) = true
  rw [cleanComp_beq_dotdot (h x hx)]
  rfl

theorem cleanComps_cons {c : String} {cs : List String} (h1 : cleanComp c = true)
    (h2 : cleanComps cs = true) : cleanComps (c :: cs) = true := by
  rw [cleanComps, List.all_cons, h1, Bool.true_and]
  exact h2

theorem cleanComps_dropLast {cs : List String} (h : cleanComps cs = true) :
    cleanComps cs.dropLast = true := by
  rw [cleanComps, List.all_eq_true] at h ⊢
  exact fun x hx => h x (List.mem_of_mem_dropLast hx)

/-- `splitSlash` at a slash. -/
theorem splitSlash_cons_slash (l : List Char) :
    splitSlash ('/' :: l) = [] :: splitSlash l := by
  rw [splitSlash, if_pos rfl]

/-- `splitSlash` of a slash-free run. -/
theorem splitSlash_no_slash (l : List Char) (h : l.contains '/' = false) :
    splitSlash l = [l] := by
  induction l with
  | nil => rfl
  | cons c rest ih =>
    simp only [List.contains_cons, Bool.or_eq_false_iff, beq_eq_false_iff_ne] at h
    rw [splitSlash, if_neg fun hc => h.1 hc.symm, ih h.2]

/-- `splitSlash` splits at the first slash after a slash-free run. -/
theorem splitSlash_append_slash (l r : List Char) (h : l.contains '/' = false) :
    splitSlash (l ++ '/' :: r) = l :: splitSlash r := by
  induction l with
  | nil =>
    rw [List.nil_append]
    exact splitSlash_cons_slash r
  | cons c rest ih =>
    simp only [List.contains_cons, Bool.or_eq_false_iff, beq_eq_false_iff_ne] at h
    rw [List.cons_append, splitSlash, if_neg fun hc => h.1 hc.symm, ih h.2]

/-- Structure eta for strings. -/
theorem mk_data (s : String) : String.mk s.data = s := rfl

theorem comps_eq_compsList (s : String) : comps s = compsList (splitSlash s.data) := rfl

theorem compsList_nil_cons (L : List (List Char)) : compsList ([] :: L) = compsList L := by
  rw [compsList, compsList, List.map_cons, List.filter_cons, if_neg (by decide)]

theorem compsList_keep_cons (c : String) (L : List (List Char)) (h : compOk c = true) :
    compsList (c.data :: L) = c :: compsList L := by
  rw [compsList, compsList, List.map_cons, mk_data, List.filter_cons, if_pos (compOk_keep h)]

/-- Rendering data: the cons case. -/
theorem data_renderComps_cons (c : String) (cs : List String) :
    (renderComps (c :: cs)).data = '/' :: (c.data ++ (renderComps cs).data) := by
  rw [renderComps, String.data_append, String.data_append]
  rfl

theorem renderComps_append (xs ys : List String) :
    renderComps (xs ++ ys) = renderComps xs ++ renderComps ys := by
  induction xs with
  | nil => rfl
  | cons c cs ih =>
    rw [List.cons_append, renderComps, ih, renderComps]
    simp only [String.append_assoc]

/-- Parsing a rendered component list gives it back. -/
theorem comps_renderComps (cs : List String) (h : cs.all compOk = true) :
    comps (renderComps cs) = cs := by
  induction cs with
  | nil => rfl
  | cons c rest ih =>
    rw [List.all_cons, Bool.and_eq_true] at h
    rw [comps_eq_compsList, data_renderComps_cons, splitSlash_cons_slash, compsList_nil_cons]
    cases rest with
    | nil =>
      rw [show (renderComps ([] : List String)).data = [] from rfl, List.append_nil]
      rw [splitSlash_no_slash c.data (compOk_no_slash h.1), compsList_keep_cons c [] h.1]
      rfl
    | cons r0 rs =>
      rw [data_renderComps_cons]
      rw [splitSlash_append_slash c.data _ (compOk_no_slash h.1), compsList_keep_cons c _ h.1]
      have ih' := ih h.2
      rw [comps_eq_compsList, data_renderComps_cons, splitSlash_cons_slash,
        compsList_nil_cons] at ih'
      rw [ih']

theorem renderAbs_ne_nil (cs : List String) (h : cs ≠ []) :
    renderAbs cs = renderComps cs := by
  rw [renderAbs, if_neg h]

theorem comps_renderAbs (cs : List String) (h : cs.all compOk = true) :
    comps (renderAbs cs) = cs := by
  cases cs with
  | nil => rfl
  | cons c rest =>
    rw [renderAbs_ne_nil _ (List.cons_ne_nil c rest)]
    exact comps_renderComps _ h

/-- Parsing a rendered relative component list gives it back. -/
theorem comps_renderRel (cs : List String) (h : cs.all compOk = true) :
    comps (renderRel cs) = cs := by
  induction cs with
  | nil => rfl
  | cons c rest ih =>
    rw [List.all_cons, Bool.and_eq_true] at h
    cases rest with
    | nil =>
      show comps c = [c]
      rw [comps_eq_compsList, splitSlash_no_slash c.data (compOk_no_slash h.1),
        compsList_keep_cons c [] h.1]
      rfl
    | cons r0 rs =>
      rw [comps_eq_compsList]
      rw [show (renderRel (c :: r0 :: rs)).data =
        c.data ++ '/' :: (renderRel (r0 :: rs)).data from by
          show ((c ++ "/") ++ renderRel (r0 :: rs)).data =
            c.data ++ '/' :: (renderRel (r0 :: rs)).data
          rw [String.data_append, String.data_append]
          rw [List.append_assoc]
          rfl]
      rw [splitSlash_append_slash c.data _ (compOk_no_slash h.1), compsList_keep_cons c _ h.1]
      have ih' := ih h.2
      rw [comps_eq_compsList] at ih'
      rw [ih']

theorem isAbs_renderComps_cons (c : String) (cs : List String) :
    isAbs (renderComps (c :: cs)) = true := by
  rw [isAbs, data_renderComps_cons]
  rfl

theorem isAbs_renderComps_of_ne_nil (cs : List String) (h : cs ≠ []) :
    isAbs (renderComps cs) = true := by
  cases cs with
  | nil => exact absurd rfl h
  | cons c rest => exact isAbs_renderComps_cons c rest

theorem isAbs_renderAbs (cs : List String) : isAbs (renderAbs cs) = true := by
  cases cs with
  | nil => rfl
  | cons c rest =>
    rw [renderAbs_ne_nil _ (List.cons_ne_nil c rest)]
    exact isAbs_renderComps_cons c rest

/-- Without `".."` components, normalization just appends onto the stack. -/
theorem normAbsGo_no_dotdot (cs : List String)
    (h : (cs.all fun c => !(c == "..")) = true) :
    ∀ st : List String, normAbsGo st cs = st.reverse ++ cs := by
  induction cs with
  | nil =>
    intro st
    rw [normAbsGo, List.append_nil]
  | cons c rest ih =>
    intro st
    rw [List.all_cons, Bool.and_eq_true] at h
    have hc : ¬(c = "..") := beq_eq_false_iff_ne.mp (bool_not_true h.1)
    rw [normAbsGo, if_neg hc, ih h.2 (c :: st), List.reverse_cons, List.append_assoc]
    rfl

theorem normAbs_nil_of_no_dotdot (cs : List String)
    (h : (cs.all fun c => !(c == "..")) = true) : normAbsGo [] cs = cs := by
  rw [normAbsGo_no_dotdot cs h []]
  rfl

/-- Normalization walks a `".."`-free run onto the stack. -/
theorem normAbsGo_through (xs : List String)
    (h : (xs.all fun c => !(c == "..")) = true) :
    ∀ st rest : List String, normAbsGo st (xs ++ rest) = normAbsGo (xs.reverse ++ st) rest := by
  induction xs with
  | nil =>
    intro st rest
    rfl
  | cons c cs ih =>
    intro st rest
    rw [List.all_cons, Bool.and_eq_true] at h
    have hc : ¬(c = "..") := beq_eq_false_iff_ne.mp (bool_not_true h.1)
    rw [List.cons_append, normAbsGo, if_neg hc, ih h.2 (c :: st) rest, List.reverse_cons,
      List.append_assoc]
    rfl

/-- The one `".."` collapse the commands exercise: climbing out of `b` and
descending into `t` from the same parent `W`. -/
theorem normAbsGo_collapse (W : List String) (b : String) (t : List String)
    (hW : (W.all fun c => !(c == "..")) = true) (hb : (b == "..") = false)
    (ht : (t.all fun c => !(c == "..")) = true) :
    normAbsGo [] (W ++ [b] ++ ".." :: t) = W ++ t := by
  have hWb : ((W ++ [b]).all fun c => !(c == "..")) = true := by
    rw [List.all_append, hW, Bool.true_and, List.all_cons, List.all_nil, Bool.and_true, hb]
    rfl
  rw [normAbsGo_through (W ++ [b]) hWb [] (".." :: t), normAbsGo, if_pos rfl,
    List.append_nil, List.reverse_append]
  show normAbsGo W.reverse t = W ++ t
  rw [normAbsGo_no_dotdot t ht W.reverse, List.reverse_reverse]

theorem commonRunLen_append (W u v : List String) :
    commonRunLen (W ++ u) (W ++ v) = W.length + commonRunLen u v := by
  induction W with
  | nil =>
    rw [List.nil_append, List.nil_append, List.length_nil, Nat.zero_add]
  | cons c W' ih =>
    rw [List.cons_append, List.cons_append, commonRunLen, if_pos rfl, ih, List.length_cons]
    omega

theorem commonRunLen_nil_right (l : List String) : commonRunLen l [] = 0 := by
  cases l with
  | nil => rfl
  | cons c cs => rfl

theorem commonRunLen_ne_head (a b : String) (u v : List String) (h : ¬(a = b)) :
    commonRunLen (a :: u) (b :: v) = 0 := by
  rw [commonRunLen, if_neg h]

/-! ### `startsWith` classification over rendered paths -/

theorem jsStartsWith_iff (s pre : String) :
    jsStartsWith s pre = true ↔ pre.data <+: s.data := by
  rw [jsStartsWith]
  exact List.isPrefixOf_iff_prefix

theorem data_render_append_single (W : List String) (d : String) :
    (renderComps (W ++ [d])).data = (renderComps W).data ++ '/' :: d.data := by
  rw [renderComps_append, String.data_append, data_renderComps_cons]
  rw [show (renderComps ([] : List String)).data = [] from rfl, List.append_nil]

theorem data_render_append_cons (W : List String) (c : String) (rest : List String) :
    (renderComps (W ++ c :: rest)).data =
      (renderComps W).data ++ '/' :: (c.data ++ (renderComps rest).data) := by
  rw [renderComps_append, String.data_append, data_renderComps_cons]

/-- A rendered root `W ++ [d]` is a raw string-prefix of any rendered path
`W ++ c :: rest` whose head component extends `d`. -/
theorem jsStartsWith_render_pos (W : List String) (c : String) (rest : List String)
    (d : String) (h : d.data <+: c.data) :
    jsStartsWith (renderComps (W ++ c :: rest)) (renderComps (W ++ [d])) = true := by
  refine (jsStartsWith_iff _ _).mpr ?_
  rw [data_render_append_single, data_render_append_cons]
  refine (List.prefix_append_right_inj _).mpr ?_
  exact List.cons_prefix_cons.mpr ⟨rfl, h.trans (List.prefix_append c.data _)⟩

/-- A rendered root whose name starts with a different character than the
path's head component is not a string-prefix of the path. -/
theorem jsStartsWith_render_neg (W : List String) (c : String) (rest : List String)
    (d : String) (a b : Char) (lc ld : List Char) (hc : c.data = a :: lc)
    (hd : d.data = b :: ld) (hne : ¬(b = a)) :
    jsStartsWith (renderComps (W ++ c :: rest)) (renderComps (W ++ [d])) = false := by
  refine Bool.eq_false_iff.mpr fun hjs => ?_
  have hp := (jsStartsWith_iff _ _).mp hjs
  rw [data_render_append_single, data_render_append_cons] at hp
  have hp2 := (List.prefix_append_right_inj _).mp hp
  have hp4 := (List.cons_prefix_cons.mp hp2).2
  rw [hd, hc, List.cons_append] at hp4
  exact hne (List.cons_prefix_cons.mp hp4).1

/-! ### The provider's category roots over a rendered workspace root -/

theorem pathJoin_renderAbs_single (W : List String) (d : String) (hW : cleanComps W = true)
    (hd : cleanComp d = true) (hcd : comps d = [d]) :
    pathJoin (renderAbs W) d = renderComps (W ++ [d]) := by
  have hall : ((W ++ [d]).all fun c => !(c == "..")) = true := by
    rw [List.all_append, all_ne_dotdot_of_cleanComps hW, Bool.true_and, List.all_cons,
      List.all_nil, Bool.and_true, cleanComp_beq_dotdot hd]
    rfl
  rw [pathJoin, if_pos (isAbs_renderAbs W)]
  rw [comps_renderAbs W (all_compOk_of_cleanComps hW), hcd]
  rw [normAbs_nil_of_no_dotdot (W ++ [d]) hall]
  rw [renderAbs_ne_nil _ (by simp)]

theorem mkProvider_src (W : List String) (hW : cleanComps W = true) :
    (mkProvider (renderAbs W)).sourceDirectory = renderComps (W ++ ["web-src"]) :=
  pathJoin_renderAbs_single W "web-src" hW (by decide) (by decide)

theorem mkProvider_res (W : List String) (hW : cleanComps W = true) :
    (mkProvider (renderAbs W)).resourcesDirectory = renderComps (W ++ ["res"]) :=
  pathJoin_renderAbs_single W "res" hW (by decide) (by decide)

theorem mkProvider_inc (W : List String) (hW : cleanComps W = true) :
    (mkProvider (renderAbs W)).includeDirectory = renderComps (W ++ ["include"]) :=
  pathJoin_renderAbs_single W "include" hW (by decide) (by decide)

/-- The `elementTypeDir` chain over rendered paths: a path under `W` whose
head component extends one of the root names is classified to that root
(head characters `w`, `r`, `i` keep the three tests from interfering). -/
theorem elementTypeDir_render (W : List String) (c : String) (rest : List String)
    (rootName : String) (hW : cleanComps W = true)
    (hroot : rootName = "web-src" ∨ rootName = "res" ∨ rootName = "include")
    (hpre : rootName.data <+: c.data) :
    elementTypeDir (mkProvider (renderAbs W)) (renderComps (W ++ c :: rest)) =
      some (renderComps (W ++ [rootName])) := by
  obtain ⟨t, ht⟩ := hpre
  rcases hroot with h | h | h
  · subst h
    rw [elementTypeDir, mkProvider_src W hW,
      jsStartsWith_render_pos W c rest "web-src" ⟨t, ht⟩, if_pos rfl]
  · subst h
    have hc : c.data = 'r' :: (['e', 's'] ++ t) := by
      rw [← ht]
      rfl
    rw [elementTypeDir, mkProvider_src W hW, mkProvider_res W hW,
      jsStartsWith_render_neg W c rest "web-src" 'r' 'w' _ _ hc rfl (by decide),
      if_neg Bool.false_ne_true,
      jsStartsWith_render_pos W c rest "res" ⟨t, ht⟩, if_pos rfl]
  · subst h
    have hc : c.data = 'i' :: (['n', 'c', 'l', 'u', 'd', 'e'] ++ t) := by
      rw [← ht]
      rfl
    rw [elementTypeDir, mkProvider_src W hW, mkProvider_res W hW, mkProvider_inc W hW,
      jsStartsWith_render_neg W c rest "web-src" 'i' 'w' _ _ hc rfl (by decide),
      if_neg Bool.false_ne_true,
      jsStartsWith_render_neg W c rest "res" 'i' 'r' _ _ hc rfl (by decide),
      if_neg Bool.false_ne_true,
      jsStartsWith_render_pos W c rest "include" ⟨t, ht⟩, if_pos rfl]

/-- `targetDir` over rendered paths, for a classified element: the relative
re-join formula of line 71–72 of the source. -/
theorem targetDirOf_render (W : List String) (c : String) (rest : List String)
    (rootName type b : String) (isDir : Bool) (hW : cleanComps W = true)
    (hroot : rootName = "web-src" ∨ rootName = "res" ∨ rootName = "include")
    (hpre : rootName.data <+: c.data)
    (hb : baseDirOf (mkProvider (renderAbs W)) type = some b) :
    targetDirOf (mkProvider (renderAbs W)) type
        (some ⟨renderComps (W ++ c :: rest), isDir⟩) =
      some (pathJoin b (pathRelative (renderComps (W ++ [rootName]))
        (if isDir then renderComps (W ++ c :: rest)
         else pathDirname (renderComps (W ++ c :: rest))))) := by
  show (match elementTypeDir (mkProvider (renderAbs W)) (renderComps (W ++ c :: rest)) with
    | some r =>
      (baseDirOf (mkProvider (renderAbs W)) type).map fun bb =>
        pathJoin bb (pathRelative r
          (if isDir then renderComps (W ++ c :: rest)
           else pathDirname (renderComps (W ++ c :: rest))))
    | none => some (if isDir then renderComps (W ++ c :: rest)
        else pathDirname (renderComps (W ++ c :: rest)))) = _
  rw [elementTypeDir_render W c rest rootName hW hroot hpre, hb]
  rfl

theorem all_compOk_dotdot_cons {tail : List String} (ht : cleanComps tail = true) :
    ((".." :: tail).all compOk) = true := by
  rw [List.all_cons, all_compOk_of_cleanComps ht, Bool.and_true]
  decide

/-- The key collapse: `path.join` onto any root `W ++ [bn]` of
`path.relative` from a root `W ++ [rootName]` to a path `W ++ tail` that
does not descend into `rootName` climbs straight back out and lands on
`W ++ tail` itself, whatever `bn` is. -/
theorem pathJoin_relative_collapse (W : List String) (bn rootName : String)
    (tail : List String) (hW : cleanComps W = true) (hbn : cleanComp bn = true)
    (hroot : cleanComp rootName = true) (htail : cleanComps tail = true)
    (hne : tail = [] ∨ ∃ c rest, tail = c :: rest ∧ ¬(c = rootName)) :
    pathJoin (renderComps (W ++ [bn]))
      (pathRelative (renderComps (W ++ [rootName])) (renderAbs (W ++ tail))) =
    renderAbs (W ++ tail) := by
  have hallWr : (W ++ [rootName]).all compOk = true := by
    rw [List.all_append, all_compOk_of_cleanComps hW, Bool.true_and, List.all_cons,
      List.all_nil, Bool.and_true]
    exact cleanComp_compOk hroot
  have hallWbn : (W ++ [bn]).all compOk = true := by
    rw [List.all_append, all_compOk_of_cleanComps hW, Bool.true_and, List.all_cons,
      List.all_nil, Bool.and_true]
    exact cleanComp_compOk hbn
  have hallWt : (W ++ tail).all compOk = true := by
    rw [List.all_append, all_compOk_of_cleanComps hW, Bool.true_and]
    exact all_compOk_of_cleanComps htail
  have hndWr : ((W ++ [rootName]).all fun c => !(c == "..")) = true := by
    rw [List.all_append, all_ne_dotdot_of_cleanComps hW, Bool.true_and, List.all_cons,
      List.all_nil, Bool.and_true, cleanComp_beq_dotdot hroot]
    rfl
  have hndWt : ((W ++ tail).all fun c => !(c == "..")) = true := by
    rw [List.all_append, all_ne_dotdot_of_cleanComps hW, Bool.true_and]
    exact all_ne_dotdot_of_cleanComps htail
  have hk : commonRunLen (W ++ [rootName]) (W ++ tail) = W.length := by
    rw [commonRunLen_append]
    rcases hne with h | ⟨c, rest, hteq, hcne⟩
    · subst h
      rw [commonRunLen_nil_right, Nat.add_zero]
    · subst hteq
      rw [commonRunLen_ne_head rootName c [] rest fun hh => hcne hh.symm, Nat.add_zero]
  rw [pathRelative, comps_renderComps _ hallWr, comps_renderAbs _ hallWt,
    normAbs_nil_of_no_dotdot _ hndWr, normAbs_nil_of_no_dotdot _ hndWt, hk,
    List.drop_left]
  have hlen : (W ++ [rootName]).length - W.length = 1 := by
    simp
  rw [hlen, List.replicate_one]
  rw [show ([".."] ++ tail : List String) = ".." :: tail from rfl]
  rw [pathJoin, if_pos (isAbs_renderComps_of_ne_nil _ (by simp))]
  rw [comps_renderComps _ hallWbn, comps_renderRel _ (all_compOk_dotdot_cons htail)]
  rw [normAbsGo_collapse W bn tail (all_ne_dotdot_of_cleanComps hW)
    (cleanComp_beq_dotdot hbn) (all_ne_dotdot_of_cleanComps htail)]

/-- `path.dirname` over rendered paths. -/
theorem pathDirname_render (W : List String) (c : String) (rest : List String)
    (hW : cleanComps W = true) (hc : cleanComp c = true) (hrest : cleanComps rest = true) :
    pathDirname (renderComps (W ++ c :: rest)) = renderAbs (W ++ (c :: rest).dropLast) := by
  have hall : (W ++ c :: rest).all compOk = true := by
    rw [List.all_append, all_compOk_of_cleanComps hW, Bool.true_and]
    exact all_compOk_of_cleanComps (cleanComps_cons hc hrest)
  have hnd : ((W ++ c :: rest).all fun x => !(x == "..")) = true := by
    rw [List.all_append, all_ne_dotdot_of_cleanComps hW, Bool.true_and]
    exact all_ne_dotdot_of_cleanComps (cleanComps_cons hc hrest)
  rw [pathDirname, if_pos (isAbs_renderComps_of_ne_nil _ (by simp))]
  rw [comps_renderComps _ hall, normAbs_nil_of_no_dotdot _ hnd, List.dropLast_append_cons]

/-! ### The command claims -/

/-- C8: a dismissed or empty file-name prompt, a missing element for delete,
and a declined delete confirmation each end in a silent no-op: the handler
returns without error, with the filesystem state unchanged and no tree
refresh. -/
theorem c8_cancel_noop :
    (∀ (prov : Provider) (element : Option Elem) (type : String) (st : FSS),
      createFilePrompt prov element type none st = .ok (st, false)) ∧
    (∀ (prov : Provider) (element : Option Elem) (type : String) (st : FSS),
      createFilePrompt prov element type (some "") st = .ok (st, false)) ∧
    (∀ (confirm : Option String) (st : FSS),
      deleteFilePrompt none confirm st = (st, false)) ∧
    (∀ (el : Elem) (confirm : Option String) (st : FSS), ¬(confirm = some "Delete") →
      deleteFilePrompt (some el) confirm st = (st, false)) := by
  refine ⟨fun prov element type st => rfl, fun prov element type st => rfl,
    fun confirm st => rfl, fun el confirm st hne => ?_⟩
  show (if confirm = some "Delete" then
      (if el.isDirectory then (removeRecursive st el.fsPath, true)
       else (unlink st el.fsPath, true))
    else (st, false)) = (st, false)
  exact if_neg hne

theorem c8_witness :
    createFilePrompt (mkProvider "/ws") none "source" none (FSS.mk [] []) =
      .ok (FSS.mk [] [], false) ∧
    deleteFilePrompt (some (Elem.mk "/ws/web-src/a.txt" false)) (some "Cancel")
        (FSS.mk [] []) = (FSS.mk [] [], false) :=
  ⟨c8_cancel_noop.1 (mkProvider "/ws") none "source" (FSS.mk [] []),
   c8_cancel_noop.2.2.2 (Elem.mk "/ws/web-src/a.txt" false) (some "Cancel") (FSS.mk [] [])
     (by decide)⟩

/-- C4 counterexample: a configuration naming `custom-src` as the source
directory drives the tree (its "Combined source" section lists the contents
of `custom-src`), yet the creation-side category root for `source` is still
the default `web-src` join — the configured directory never reaches
`createFilePrompt`. -/
theorem c4_counterexample :
    getFoldersFromConfig [Entry.dir "custom-src" [Entry.file "f.txt"]] [] 2
        (Config.mk (some ["custom-src"]) none none) =
      .ok [SectionNode.mk "Combined source" [Node.file "f.txt" ["custom-src", "f.txt"]]] ∧
    baseDirOf (mkProvider "/ws") "source" = some "/ws/web-src" ∧
    pathJoin "/ws" "custom-src" = "/ws/custom-src" ∧
    ¬("/ws/web-src" = "/ws/custom-src") := by
  refine ⟨rfl, by decide, by decide, by decide⟩

/-- C4 (amended): the category roots used by file creation — the base
directory for the new file and the roots the selected node is prefix-matched
against — are always the constructor's defaults `web-src`, `res`, `include`
joined onto the workspace root, whatever any configuration file says. -/
theorem c4_default_roots (ws type : String) :
    (∀ b, baseDirOf (mkProvider ws) type = some b →
      b = pathJoin ws "web-src" ∨ b = pathJoin ws "res" ∨ b = pathJoin ws "include") ∧
    (∀ p r, elementTypeDir (mkProvider ws) p = some r →
      r = pathJoin ws "web-src" ∨ r = pathJoin ws "res" ∨ r = pathJoin ws "include") := by
  constructor
  · intro b hb
    rw [baseDirOf] at hb
    by_cases h1 : type = "resource"
    · rw [if_pos h1] at hb
      exact Or.inr (Or.inl (Option.some.inj hb).symm)
    · rw [if_neg h1] at hb
      by_cases h2 : type = "source"
      · rw [if_pos h2] at hb
        exact Or.inl (Option.some.inj hb).symm
      · rw [if_neg h2] at hb
        by_cases h3 : type = "include"
        · rw [if_pos h3] at hb
          exact Or.inr (Or.inr (Option.some.inj hb).symm)
        · rw [if_neg h3] at hb
          exact Option.noConfusion hb
  · intro p r hr
    rw [elementTypeDir] at hr
    by_cases h1 : jsStartsWith p (mkProvider ws).sourceDirectory = true
    · rw [if_pos h1] at hr
      exact Or.inl (Option.some.inj hr).symm
    · rw [if_neg h1] at hr
      by_cases h2 : jsStartsWith p (mkProvider ws).resourcesDirectory = true
      · rw [if_pos h2] at hr
        exact Or.inr (Or.inl (Option.some.inj hr).symm)
      · rw [if_neg h2] at hr
        by_cases h3 : jsStartsWith p (mkProvider ws).includeDirectory = true
        · rw [if_pos h3] at hr
          exact Or.inr (Or.inr (Option.some.inj hr).symm)
        · rw [if_neg h3] at hr
          exact Option.noConfusion hr

theorem c4_witness :
    baseDirOf (mkProvider "/ws") "source" = some "/ws/web-src" ∧
    ("/ws/web-src" = pathJoin "/ws" "web-src" ∨ "/ws/web-src" = pathJoin "/ws" "res" ∨
      "/ws/web-src" = pathJoin "/ws" "include") :=
  ⟨by decide, (c4_default_roots "/ws" "source").1 "/ws/web-src" (by decide)⟩

/-- C1 counterexample: `n` is a directory in two of the three roots, so the
claim promises a single merged node named `n`; but `n` is a file in the
earlier root `r1`, and the merge crashes with the `_mergePaths` `TypeError`
instead of returning any node list. -/
theorem c1_counterexample :
    2 ≤ (rootsListingDirName
        [Entry.dir "r1" [Entry.file "n"], Entry.dir "r2" [Entry.dir "n" []],
          Entry.dir "r3" [Entry.dir "n" []]] [] false
        [some ["r1"], some ["r2"], some ["r3"]] "n").length ∧
    getFilesFromFolders
        [Entry.dir "r1" [Entry.file "n"], Entry.dir "r2" [Entry.dir "n" []],
          Entry.dir "r3" [Entry.dir "n" []]] [] 3
        [some ["r1"], some ["r2"], some ["r3"]] false = .error .typeError := by
  exact ⟨by decide, rfl⟩

/-- C3: a selected node inside a recognized category root — a rendered path
`W ++ rootName :: rest` under workspace `W` — is classified to its own root
`W ++ [rootName]`, and the computed target directory is the requested
category's base directory joined with the node's path (itself for a
directory, its parent directory for a file) taken relative to that own
category root. -/
theorem c3_create_target_mirrors (W rest : List String) (rootName type b : String)
    (isDir : Bool) (hW : cleanComps W = true)
    (hroot : rootName = "web-src" ∨ rootName = "res" ∨ rootName = "include")
    (hb : baseDirOf (mkProvider (renderAbs W)) type = some b) :
    elementTypeDir (mkProvider (renderAbs W)) (renderComps (W ++ rootName :: rest)) =
      some (renderComps (W ++ [rootName])) ∧
    targetDirOf (mkProvider (renderAbs W)) type
        (some ⟨renderComps (W ++ rootName :: rest), isDir⟩) =
      some (pathJoin b (pathRelative (renderComps (W ++ [rootName]))
        (if isDir then renderComps (W ++ rootName :: rest)
         else pathDirname (renderComps (W ++ rootName :: rest))))) :=
  ⟨elementTypeDir_render W rootName rest rootName hW hroot (List.prefix_refl _),
   targetDirOf_render W rootName rest rootName type b isDir hW hroot
     (List.prefix_refl _) hb⟩

theorem c3_witness :
    targetDirOf (mkProvider "/ws") "resource" (some (Elem.mk "/ws/web-src/a" true)) =
      some (pathJoin "/ws/res" (pathRelative "/ws/web-src" "/ws/web-src/a")) ∧
    pathJoin "/ws/res" (pathRelative "/ws/web-src" "/ws/web-src/a") = "/ws/res/a" ∧
    pathJoin (pathJoin "/ws/res" (pathRelative "/ws/web-src" "/ws/web-src/a")) "z.txt" =
      "/ws/res/a/z.txt" := by
  have h := (c3_create_target_mirrors ["ws"] ["a"] "web-src" "resource" "/ws/res" true
    (by decide) (Or.inl rfl) (by decide)).2
  have e1 : renderAbs ["ws"] = "/ws" := by decide
  have e2 : renderComps (["ws"] ++ "web-src" :: ["a"]) = "/ws/web-src/a" := by decide
  have e3 : renderComps (["ws"] ++ ["web-src"]) = "/ws/web-src" := by decide
  rw [e1, e2, e3] at h
  refine ⟨?_, by decide, by decide⟩
  rw [h]
  decide

/-- C10 counterexample: the sibling directory `/ws/res-extra` is classified
to the `res` root (raw string-prefix matching), but the computed target for
a create in the `source` category is the node's own directory
`/ws/res-extra`, not a position mirrored into the requested category's
root. -/
theorem c10_counterexample :
    elementTypeDir (mkProvider "/ws") "/ws/res-extra" = some "/ws/res" ∧
    targetDirOf (mkProvider "/ws") "source" (some (Elem.mk "/ws/res-extra" true)) =
      some "/ws/res-extra" := by
  exact ⟨by decide, by decide⟩

/-- C10 (amended): prefix matching is by raw string prefix — a sibling
`W ++ c :: rest` whose head component `c` extends a category root's name is
classified to that root — but the computed target then collapses to the
node's own directory (its parent for a file) for every requested category,
not to a position mirrored into the requested category's root. -/
theorem c10_sibling_collapse (W : List String) (c : String) (rest : List String)
    (rootName type b : String) (isDir : Bool)
    (hW : cleanComps W = true) (hc : cleanComp c = true) (hrest : cleanComps rest = true)
    (hroot : rootName = "web-src" ∨ rootName = "res" ∨ rootName = "include")
    (hpre : rootName.data <+: c.data) (hcne : ¬(c = rootName))
    (hb : baseDirOf (mkProvider (renderAbs W)) type = some b) :
    elementTypeDir (mkProvider (renderAbs W)) (renderComps (W ++ c :: rest)) =
      some (renderComps (W ++ [rootName])) ∧
    targetDirOf (mkProvider (renderAbs W)) type
        (some ⟨renderComps (W ++ c :: rest), isDir⟩) =
      some (if isDir then renderComps (W ++ c :: rest)
            else pathDirname (renderComps (W ++ c :: rest))) := by
  refine ⟨elementTypeDir_render W c rest rootName hW hroot hpre, ?_⟩
  rw [targetDirOf_render W c rest rootName type b isDir hW hroot hpre hb]
  have hbn : ∃ bn, cleanComp bn = true ∧ b = renderComps (W ++ [bn]) := by
    rw [baseDirOf] at hb
    by_cases h1 : type = "resource"
    · rw [if_pos h1] at hb
      exact ⟨"res", by decide, (Option.some.inj hb).symm.trans (mkProvider_res W hW)⟩
    · rw [if_neg h1] at hb
      by_cases h2 : type = "source"
      · rw [if_pos h2] at hb
        exact ⟨"web-src", by decide, (Option.some.inj hb).symm.trans (mkProvider_src W hW)⟩
      · rw [if_neg h2] at hb
        by_cases h3 : type = "include"
        · rw [if_pos h3] at hb
          exact ⟨"include", by decide, (Option.some.inj hb).symm.trans (mkProvider_inc W hW)⟩
        · rw [if_neg h3] at hb
          exact Option.noConfusion hb
  obtain ⟨bn, hbnc, hbeq⟩ := hbn
  subst hbeq
  have hrootc : cleanComp rootName = true := by
    rcases hroot with h | h | h <;> rw [h] <;> decide
  cases isDir with
  | true =>
    show some (pathJoin (renderComps (W ++ [bn]))
        (pathRelative (renderComps (W ++ [rootName])) (renderComps (W ++ c :: rest)))) =
      some (renderComps (W ++ c :: rest))
    rw [← renderAbs_ne_nil (W ++ c :: rest) (by simp)]
    exact congrArg some (pathJoin_relative_collapse W bn rootName (c :: rest) hW hbnc hrootc
      (cleanComps_cons hc hrest) (Or.inr ⟨c, rest, rfl, hcne⟩))
  | false =>
    show some (pathJoin (renderComps (W ++ [bn]))
        (pathRelative (renderComps (W ++ [rootName]))
          (pathDirname (renderComps (W ++ c :: rest))))) =
      some (pathDirname (renderComps (W ++ c :: rest)))
    rw [pathDirname_render W c rest hW hc hrest]
    refine congrArg some (pathJoin_relative_collapse W bn rootName ((c :: rest).dropLast) hW
      hbnc hrootc (cleanComps_dropLast (cleanComps_cons hc hrest)) ?_)
    cases rest with
    | nil => exact Or.inl rfl
    | cons r0 rs => exact Or.inr ⟨c, (r0 :: rs).dropLast, rfl, hcne⟩

theorem c10_witness :
    elementTypeDir (mkProvider "/ws") "/ws/include-plus" = some "/ws/include" ∧
    targetDirOf (mkProvider "/ws") "resource" (some (Elem.mk "/ws/include-plus" true)) =
      some "/ws/include-plus" := by
  have h := c10_sibling_collapse ["ws"] "include-plus" [] "include" "resource" "/ws/res" true
    (by decide) (by decide) (by decide) (Or.inr (Or.inr rfl)) (by decide) (by decide)
    (by decide)
  have e1 : renderAbs ["ws"] = "/ws" := by decide
  have e2 : renderComps (["ws"] ++ "include-plus" :: ([] : List String)) = "/ws/include-plus" :=
    by decide
  have e3 : renderComps (["ws"] ++ ["include"]) = "/ws/include" := by decide
  rw [e1, e2, e3] at h
  refine ⟨h.1, ?_⟩
  rw [h.2]
  decide

end FCCW
